import Mathlib

/-!
Shallow embedding of the cell0-os kernel core (Rust) in Lean 4, with proofs
checking the natural-language specification against the code.

Conventions:
* Rust `u64`/`usize` values are modelled as `Nat`.  The operations embedded
  here only ever increment small counters or perform bit operations on
  values below `2^64`, so wrap-around never occurs on the modelled paths;
  where a Rust mask like `!x` (bitwise complement on `u64`) appears, it is
  written explicitly as `U64_MAX ^^^ x`.
* Rust `Vec`/`VecDeque` become `List`; `BTreeMap<u64, T>` becomes an
  association list `List (Nat × T)` whose keys are inserted in increasing
  order (the kernel only ever inserts fresh, monotonically issued ids), so
  list order agrees with the map's ascending-key iteration order.
* Each definition mirrors one Rust item of the same name; the source file
  and function are named in the doc comment.
-/

namespace Cell0

/-! ## Capabilities (src/cell0/kernel/src/process/mod.rs) -/

/-- `Capability` enum from process/mod.rs (discriminants 0..14 and 63). -/
inductive Capability where
  | FileRead
  | FileWrite
  | FileCreate
  | FileDelete
  | Network
  | ProcessSpawn
  | ProcessKill
  | MemoryAlloc
  | Execute
  | HardwareAccess
  | SetTime
  | LoadModule
  | SignalSend
  | IpcCreate
  | IpcJoin
  | Admin
  deriving DecidableEq, Repr

/-- The `cap as u64` discriminant used as a bit position. -/
def Capability.toBit : Capability → Nat
  | .FileRead => 0
  | .FileWrite => 1
  | .FileCreate => 2
  | .FileDelete => 3
  | .Network => 4
  | .ProcessSpawn => 5
  | .ProcessKill => 6
  | .MemoryAlloc => 7
  | .Execute => 8
  | .HardwareAccess => 9
  | .SetTime => 10
  | .LoadModule => 11
  | .SignalSend => 12
  | .IpcCreate => 13
  | .IpcJoin => 14
  | .Admin => 63

/-- `u64::MAX`. -/
def U64_MAX : Nat := 2 ^ 64 - 1

/-- `Capabilities` bitset from process/mod.rs. -/
structure Capabilities where
  bits : Nat
  deriving DecidableEq, Repr

namespace Capabilities

/-- `Capabilities::new`. -/
def new : Capabilities := ⟨0⟩

/-- `Capabilities::set`: `self.bits |= 1u64 << (cap as u64)`. -/
def set (s : Capabilities) (cap : Capability) : Capabilities :=
  ⟨s.bits ||| (1 <<< cap.toBit)⟩

/-- `Capabilities::clear`: `self.bits &= !(1u64 << (cap as u64))`. -/
def clear (s : Capabilities) (cap : Capability) : Capabilities :=
  ⟨s.bits &&& (U64_MAX ^^^ (1 <<< cap.toBit))⟩

/-- `Capabilities::has_admin`. -/
def has_admin (s : Capabilities) : Bool :=
  (s.bits &&& (1 <<< Capability.Admin.toBit)) ≠ 0

/-- `Capabilities::has`: the Admin bit short-circuits every query. -/
def has (s : Capabilities) (cap : Capability) : Bool :=
  s.has_admin || ((s.bits &&& (1 <<< cap.toBit)) ≠ 0)

/-- `Capabilities::grant_all`: `self.bits = u64::MAX`. -/
def grant_all (_s : Capabilities) : Capabilities := ⟨U64_MAX⟩

/-- `Capabilities::derive`: for each requested capability that `self.has`,
set it in a fresh set (capability attenuation). -/
def derive (s : Capabilities) (caps : List Capability) : Capabilities :=
  caps.foldl (fun acc cap => if s.has cap then acc.set cap else acc) new

/-- Raw membership in the bitset (one bit of `bits`), without the Admin
shortcut: this is what `set` writes and what the stored set contains. -/
def memRaw (s : Capabilities) (cap : Capability) : Bool :=
  s.bits.testBit cap.toBit

end Capabilities

/-! ## IPC channels (src/cell0/kernel/src/ipc/mod.rs) -/

/-- `MAX_MESSAGE_SIZE` from ipc/mod.rs. -/
def MAX_MESSAGE_SIZE : Nat := 4096

/-- `MAX_PENDING_MESSAGES` from ipc/mod.rs. -/
def MAX_PENDING_MESSAGES : Nat := 256

/-- `IpcError` from ipc/mod.rs. -/
inductive IpcError where
  | ChannelNotFound
  | ChannelClosed
  | InvalidState
  | MessageTooLarge
  | WouldBlock
  | NoMessage
  | PermissionDenied
  | ResourceNotFound
  | ResourceLimit
  deriving DecidableEq, Repr

/-- `ChannelType` from ipc/mod.rs. -/
inductive ChannelType where
  | Unidirectional
  | Bidirectional
  | Broadcast
  deriving DecidableEq, Repr

/-- `ChannelState` from ipc/mod.rs. -/
inductive ChannelState where
  | Connecting
  | Connected
  | Closing
  | Closed
  deriving DecidableEq, Repr

/-- `MessageHeader` from ipc/mod.rs. -/
structure MessageHeader where
  source : Nat
  destination : Nat
  msg_type : Nat
  flags : Nat
  timestamp : Nat
  deriving DecidableEq, Repr

/-- `Message` from ipc/mod.rs; the payload is the byte vector. -/
structure Message where
  header : MessageHeader
  payload : List Nat
  deriving DecidableEq, Repr

/-- `Channel` from ipc/mod.rs. -/
structure Channel where
  id : Nat
  channel_type : ChannelType
  state : ChannelState
  owner : Nat
  peer : Option Nat
  message_queue : List Message
  max_queue_size : Nat
  blocking_send : Bool
  blocking_recv : Bool
  deriving DecidableEq, Repr

namespace Channel

/-- `Channel::send`.  Mirrors the Rust control flow: reject when not
`Connected`; reject oversized payloads; when the queue is at or over
`max_queue_size`, either report `WouldBlock` (blocking mode) or pop the
oldest message (ring policy); finally push the message at the back. -/
def send (c : Channel) (message : Message) : Except IpcError Channel :=
  if c.state ≠ ChannelState.Connected then
    .error .ChannelClosed
  else if message.payload.length > MAX_MESSAGE_SIZE then
    .error .MessageTooLarge
  else if c.message_queue.length ≥ c.max_queue_size then
    if c.blocking_send then
      .error .WouldBlock
    else
      .ok { c with message_queue := c.message_queue.tail ++ [message] }
  else
    .ok { c with message_queue := c.message_queue ++ [message] }

end Channel

/-! ## SYPAS capability store (src/cell0/kernel/src/sypas/mod.rs) -/

/-- `ResourceType` from sypas/mod.rs. -/
inductive ResourceType where
  | File
  | Directory
  | Device
  | NetworkEndpoint
  | Process
  | MemoryRegion
  | IpcChannel
  | SystemCall
  deriving DecidableEq, Repr

/-- `ResourceId` from sypas/mod.rs (`id` is the byte vector). -/
structure ResourceId where
  resource_type : ResourceType
  id : List Nat
  deriving DecidableEq, Repr

/-- `AuditAction` from sypas/mod.rs. -/
inductive AuditAction where
  | CapabilityCheck
  | ResourceAccess
  | CapabilityDelegation
  | CapabilityRevocation
  | PolicyViolation
  deriving DecidableEq, Repr

/-- `AuditEntry` from sypas/mod.rs. -/
structure AuditEntry where
  timestamp : Nat
  process_id : Nat
  action : AuditAction
  resource : ResourceId
  allowed : Bool
  reason : Option String
  deriving DecidableEq, Repr

/-- `CapabilityEntry` from sypas/mod.rs. -/
structure CapabilityEntry where
  handle : Nat
  owner : Nat
  cap : Capability
  delegated_from : Option Nat
  delegated_to : List Nat
  revoked : Bool
  created_at : Nat
  deriving DecidableEq, Repr

/-- `SypasError` from sypas/mod.rs. -/
inductive SypasError where
  | AccessDenied
  | CapabilityNotFound
  | InvalidCapability
  | DelegationNotAllowed
  | PolicyViolation
  | AuditLogFull
  deriving DecidableEq, Repr

/-- `SypasManager` from sypas/mod.rs (only the fields touched by the
grant/delegate/revoke operations; policies and enforcement mode are not
involved in those paths). -/
structure SypasManager where
  capability_store : List CapabilityEntry
  next_handle : Nat
  audit_log : List AuditEntry
  deriving DecidableEq, Repr

namespace SypasManager

/-- `SypasManager::new` (store empty, `next_handle` starts at 1). -/
def new : SypasManager :=
  { capability_store := [], next_handle := 1, audit_log := [] }

/-- `process_id.to_le_bytes()` of a `u64`. -/
def leBytes (pid : Nat) : List Nat :=
  (List.range 8).map (fun i => pid / 256 ^ i % 256)

/-- `SypasManager::grant_capability`. -/
def grant_capability (m : SypasManager) (process_id : Nat) (cap : Capability) :
    Nat × SypasManager :=
  let handle := m.next_handle
  let entry : CapabilityEntry :=
    { handle := handle, owner := process_id, cap := cap,
      delegated_from := none, delegated_to := [], revoked := false,
      created_at := 0 }
  let audit : AuditEntry :=
    { timestamp := 0, process_id := process_id,
      action := .CapabilityDelegation,
      resource := ⟨.Process, leBytes process_id⟩,
      allowed := true, reason := none }
  (handle,
   { capability_store := m.capability_store ++ [entry],
     next_handle := m.next_handle + 1,
     audit_log := m.audit_log ++ [audit] })

/-- `iter_mut().find(|e| e.handle == handle)` followed by
`entry.revoked = true`: mark the first entry with this handle revoked. -/
def markRevokedFirst : List CapabilityEntry → Nat → List CapabilityEntry
  | [], _ => []
  | e :: rest, h =>
    if e.handle = h then { e with revoked := true } :: rest
    else e :: markRevokedFirst rest h

/-- `SypasManager::revoke_capability`.  The Rust function recurses over the
`delegated_to` graph; `fuel` bounds the recursion depth (the store only ever
holds acyclic delegation chains, whose depth is at most the store length, so
any `fuel` larger than the store length reproduces the Rust behaviour).
Child results are discarded (`let _ = ...` in the source). -/
def revokeFuel : Nat → SypasManager → Nat → Except SypasError Unit × SypasManager
  | 0, m, _ => (.error .CapabilityNotFound, m)
  | fuel + 1, m, handle =>
    match m.capability_store.find? (fun e => e.handle = handle) with
    | none => (.error .CapabilityNotFound, m)
    | some entry =>
      let owner := entry.owner
      let delegated := entry.delegated_to
      let m1 := { m with capability_store := markRevokedFirst m.capability_store handle }
      let m2 := delegated.foldl (fun acc d => (revokeFuel fuel acc d).2) m1
      let audit : AuditEntry :=
        { timestamp := 0, process_id := owner,
          action := .CapabilityRevocation,
          resource := ⟨.Process, leBytes owner⟩,
          allowed := true, reason := none }
      (.ok (), { m2 with audit_log := m2.audit_log ++ [audit] })

/-- `SypasManager::revoke_capability` with enough fuel for every acyclic
delegation graph the store can hold. -/
def revoke_capability (m : SypasManager) (handle : Nat) :
    Except SypasError Unit × SypasManager :=
  revokeFuel (m.capability_store.length + 1) m handle

/-- `SypasManager::delegate_capability`: find the unrevoked source entry,
mint a new handle whose `delegated_from` is the source, and push it.  (The
source entry itself is not modified.) -/
def delegate_capability (m : SypasManager) (from_handle : Nat) (to_process : Nat) :
    Except SypasError Nat × SypasManager :=
  match m.capability_store.find? (fun e => e.handle = from_handle && !e.revoked) with
  | none => (.error .CapabilityNotFound, m)
  | some original =>
    let new_handle := m.next_handle
    let delegated : CapabilityEntry :=
      { handle := new_handle, owner := to_process, cap := original.cap,
        delegated_from := some from_handle, delegated_to := [],
        revoked := false, created_at := 0 }
    (.ok new_handle,
     { m with
        capability_store := m.capability_store ++ [delegated],
        next_handle := m.next_handle + 1 })

end SypasManager

/-! ## Self-healing heap (src/cell0/kernel/src/memory/mod.rs) -/

/-- `PAGE_SIZE`. -/
def PAGE_SIZE : Nat := 4096

/-- `NUM_PAGES`. -/
def NUM_PAGES : Nat := 16384

/-- `CANARY_SIZE`. -/
def CANARY_SIZE : Nat := 8

/-- `BLOCK_MAGIC` (0x424C4B5F). -/
def BLOCK_MAGIC : Nat := 0x424C4B5F

/-- `core::mem::size_of::<BlockHeader>()` on the x86-64 target the kernel
builds for (`repr(C)`: usize + bool + u32 + 2 × Option<usize>). -/
def HEADER_SIZE : Nat := 48

/-- `MemoryStats` from memory/mod.rs. -/
structure MemoryStats where
  total_pages : Nat
  free_pages : Nat
  allocated_pages : Nat
  corrupted_pages : Nat
  total_allocations : Nat
  total_deallocations : Nat
  failed_allocations : Nat
  corruption_events : Nat
  recovered_pages : Nat
  deriving DecidableEq, Repr

/-- `BlockHeader` from memory/mod.rs (`prev`/`next` are block addresses). -/
structure BlockHeader where
  size : Nat
  is_allocated : Bool
  magic : Nat
  prev : Option Nat
  next : Option Nat
  deriving DecidableEq, Repr

/-- The heap allocator state (`HealingHeapAllocator` from memory/mod.rs).
The block headers living in heap memory are modelled as an association
list from block address to header; `canary` abstracts the 8 canary bytes
trailing a block payload (`canary a = true` iff the bytes starting at
address `a` all hold `CANARY_VALUE`). -/
structure HeapState where
  heap_base : Nat
  heap_size : Nat
  free_list : Nat
  blocks : List (Nat × BlockHeader)
  canary : Nat → Bool
  stats : MemoryStats
  healing_enabled : Bool

namespace HeapState

/-- Read the block header at an address. -/
def lookupBlock (s : HeapState) (addr : Nat) : Option BlockHeader :=
  (s.blocks.find? (fun b => b.1 = addr)).map Prod.snd

/-- Overwrite the block header at an address. -/
def writeBlock (s : HeapState) (addr : Nat) (b : BlockHeader) : HeapState :=
  { s with blocks := s.blocks.map (fun p => if p.1 = addr then (addr, b) else p) }

/-- Remove the block header at an address (after its bytes are merged into
a neighbour the header is dead memory, no longer a list node). -/
def removeBlock (s : HeapState) (addr : Nat) : HeapState :=
  { s with blocks := s.blocks.filter (fun p => p.1 ≠ addr) }

/-- Write the canary bytes at an address (`repair_canary` / allocation). -/
def writeCanary (s : HeapState) (addr : Nat) : HeapState :=
  { s with canary := Function.update s.canary addr true }

/-- `HealingHeapAllocator::heal_block`: stamp the magic marker, mark the
block allocated to prevent double-free, count a recovered page. -/
def heal_block (s : HeapState) (addr : Nat) : HeapState :=
  let s' :=
    match s.lookupBlock addr with
    | some b => s.writeBlock addr { b with magic := BLOCK_MAGIC, is_allocated := true }
    | none => s
  { s' with stats := { s'.stats with recovered_pages := s'.stats.recovered_pages + 1 } }

/-- Bump one `MemoryStats` counter. -/
def bumpCorruption (s : HeapState) : HeapState :=
  { s with stats := { s.stats with corruption_events := s.stats.corruption_events + 1 } }

/-- One step of the `alloc` free-list walk: try the block at `current`,
following `next` pointers.  `fuel` bounds the walk (the Rust loop follows
`next` pointers, which never cycle in reachable heaps); a `current` address
that holds no block header is unreadable memory in the source (undefined
behaviour there) and is modelled as a failed search. -/
def allocWalk (size align : Nat) : Nat → HeapState → Nat → Nat × HeapState
  | 0, s, _ =>
    (0, { s with stats := { s.stats with failed_allocations := s.stats.failed_allocations + 1 } })
  | _ + 1, s, 0 =>
    (0, { s with stats := { s.stats with failed_allocations := s.stats.failed_allocations + 1 } })
  | fuel + 1, s, current =>
    let total_size := size + CANARY_SIZE
    match s.lookupBlock current with
    | none =>
      (0, { s with stats := { s.stats with failed_allocations := s.stats.failed_allocations + 1 } })
    | some b0 =>
      -- magic check with healing (heal_block always returns Ok in the source)
      let s := if b0.magic ≠ BLOCK_MAGIC then
          (if s.healing_enabled then s.heal_block current else s.bumpCorruption)
        else s
      if b0.magic ≠ BLOCK_MAGIC ∧ ¬s.healing_enabled then
        (0, s)
      else
        match s.lookupBlock current with
        | none => (0, s)
        | some b =>
          if ¬b.is_allocated ∧ total_size ≤ b.size then
            let remaining := b.size - total_size
            let s :=
              if HEADER_SIZE + CANARY_SIZE + 16 ≤ remaining then
                -- split the block
                let new_block_addr := current + HEADER_SIZE + total_size
                let new_block : BlockHeader :=
                  { size := remaining - HEADER_SIZE - CANARY_SIZE,
                    is_allocated := false, magic := BLOCK_MAGIC,
                    prev := some current, next := b.next }
                let s := { s with blocks := s.blocks ++ [(new_block_addr, new_block)] }
                let s := s.writeCanary (new_block_addr + HEADER_SIZE + new_block.size)
                let s := s.writeBlock current
                  { b with next := some new_block_addr, size := total_size - CANARY_SIZE }
                if s.free_list = current then { s with free_list := new_block_addr } else s
              else s
            match s.lookupBlock current with
            | none => (0, s)
            | some b' =>
              let s := s.writeBlock current { b' with is_allocated := true }
              let s := s.writeCanary (current + HEADER_SIZE + b'.size)
              let s := { s with stats :=
                { s.stats with
                    total_allocations := s.stats.total_allocations + 1,
                    allocated_pages :=
                      s.stats.allocated_pages + (total_size + PAGE_SIZE - 1) / PAGE_SIZE,
                    free_pages :=
                      s.stats.free_pages - (total_size + PAGE_SIZE - 1) / PAGE_SIZE } }
              (current + HEADER_SIZE, s)
          else
            allocWalk size align fuel s (b.next.getD 0)

/-- `HealingHeapAllocator::alloc` for a layout of `size` bytes and
alignment `align`: a zero-size request returns the alignment itself as the
pointer; an oversized request fails; otherwise walk the free list. -/
def alloc (s : HeapState) (size align : Nat) : Nat × HeapState :=
  if size = 0 then
    (align, s)
  else if size > s.heap_size then
    (0, { s with stats := { s.stats with failed_allocations := s.stats.failed_allocations + 1 } })
  else
    allocWalk size align (s.blocks.length + 1) s s.free_list

/-- `HealingHeapAllocator::dealloc`.  A null pointer returns immediately;
the header is recovered at `ptr - HEADER_SIZE`.  A pointer whose header
address holds no block is unreadable memory in the source (undefined
behaviour); it is modelled as the magic-mismatch path without a header
rewrite. -/
def dealloc (s : HeapState) (ptr : Nat) : HeapState :=
  if ptr = 0 then s
  else
    let block_addr := ptr - HEADER_SIZE
    match s.lookupBlock block_addr with
    | none =>
      let s := s.bumpCorruption
      if s.healing_enabled then s.heal_block block_addr else s
    | some b =>
      if b.magic ≠ BLOCK_MAGIC then
        let s := s.bumpCorruption
        if s.healing_enabled then s.heal_block block_addr else s
      else if ¬b.is_allocated then
        -- double free detected
        s.bumpCorruption
      else
        -- canary check (on corruption: count it and, if healing, repair)
        let canary_addr := block_addr + HEADER_SIZE + b.size
        let s :=
          if ¬s.canary canary_addr then
            let s := s.bumpCorruption
            if s.healing_enabled then s.writeCanary canary_addr else s
          else s
        let s := s.writeBlock block_addr { b with is_allocated := false }
        let size := b.size + HEADER_SIZE + CANARY_SIZE
        let pages := (size + PAGE_SIZE - 1) / PAGE_SIZE
        let s := { s with stats :=
          { s.stats with
              total_deallocations := s.stats.total_deallocations + 1,
              allocated_pages := s.stats.allocated_pages - pages,
              free_pages := s.stats.free_pages + pages } }
        -- coalesce with next block if free
        let s :=
          match b.next with
          | some next_addr =>
            match s.lookupBlock next_addr with
            | some nb =>
              if ¬nb.is_allocated then
                let s := s.writeBlock block_addr
                  { b with is_allocated := false,
                           size := b.size + HEADER_SIZE + CANARY_SIZE + nb.size,
                           next := nb.next }
                let s := s.removeBlock next_addr
                match nb.next with
                | some next_next =>
                  match s.lookupBlock next_next with
                  | some nnb => s.writeBlock next_next { nnb with prev := some block_addr }
                  | none => s
                | none => s
              else s
            | none => s
          | none => s
        -- coalesce with previous block if free
        match s.lookupBlock block_addr with
        | none => s
        | some cur =>
          match cur.prev with
          | some prev_addr =>
            match s.lookupBlock prev_addr with
            | some pb =>
              if ¬pb.is_allocated then
                let s := s.writeBlock prev_addr
                  { pb with size := pb.size + HEADER_SIZE + CANARY_SIZE + cur.size,
                            next := cur.next }
                let s := s.removeBlock block_addr
                match cur.next with
                | some next_addr =>
                  match s.lookupBlock next_addr with
                  | some nb => s.writeBlock next_addr { nb with prev := some prev_addr }
                  | none => s
                | none => s
              else s
            | none => s
          | none => s

end HeapState

/-! ## Page frame allocator (src/cell0/kernel/src/memory/mod.rs) -/

/-- `PageState` from memory/mod.rs (2-bit encodings 0..3). -/
inductive PageState where
  | Free
  | Allocated
  | Reserved
  | Corrupted
  deriving DecidableEq, Repr

/-- `MemoryError` from memory/mod.rs. -/
inductive MemoryError where
  | OutOfMemory
  | DoubleFree
  | CorruptionDetected
  | InvalidPointer
  | AlignmentError
  | AllocationTooLarge
  deriving DecidableEq, Repr

/-- `PageFrameAllocator` from memory/mod.rs.  The 2-bit-per-page bitmap is
modelled through its accessor pair `get_page_state`/`set_page_state` as a
map from page index to state (indices `≥ NUM_PAGES` are never read). -/
structure PageFrameAllocator where
  bitmap : Nat → PageState
  next_page : Nat
  free_pages : Nat

namespace PageFrameAllocator

/-- `PageFrameAllocator::new`: all pages Free, counter `NUM_PAGES`. -/
def new : PageFrameAllocator :=
  { bitmap := fun _ => PageState.Free, next_page := 0, free_pages := NUM_PAGES }

/-- `PageFrameAllocator::get_page_state`. -/
def get_page_state (s : PageFrameAllocator) (page : Nat) : PageState :=
  s.bitmap page

/-- `PageFrameAllocator::set_page_state`. -/
def set_page_state (s : PageFrameAllocator) (page : Nat) (st : PageState) :
    PageFrameAllocator :=
  { s with bitmap := Function.update s.bitmap page st }

/-- `PageFrameAllocator::alloc_page`: scan all pages starting from the
rotating cursor; allocate the first Free one, advance the cursor and
decrement the free counter. -/
def alloc_page (s : PageFrameAllocator) : Option Nat × PageFrameAllocator :=
  match (List.range NUM_PAGES).find?
      (fun i => s.get_page_state ((s.next_page + i) % NUM_PAGES) == PageState.Free) with
  | none => (none, s)
  | some i =>
    let page := (s.next_page + i) % NUM_PAGES
    let s := s.set_page_state page PageState.Allocated
    (some page,
     { s with next_page := (page + 1) % NUM_PAGES, free_pages := s.free_pages - 1 })

/-- The inner loop of `alloc_pages`: mark pages
`start, start+1, …, start+count-1` Allocated. -/
def setAllocatedRange (f : Nat → PageState) (start : Nat) : Nat → (Nat → PageState)
  | 0 => f
  | c + 1 => Function.update (setAllocatedRange f start c) (start + c) PageState.Allocated

/-- `PageFrameAllocator::alloc_pages`: find the first run of `count`
contiguous Free pages, mark them all Allocated, subtract `count` from the
free counter. -/
def alloc_pages (s : PageFrameAllocator) (count : Nat) : Option Nat × PageFrameAllocator :=
  if count = 0 ∨ count > NUM_PAGES then (none, s)
  else
    match (List.range (NUM_PAGES - count + 1)).find?
        (fun start => (List.range count).all
          (fun i => s.get_page_state (start + i) == PageState.Free)) with
    | none => (none, s)
    | some start =>
      (some start,
       { s with bitmap := setAllocatedRange s.bitmap start count,
                free_pages := s.free_pages - count })

/-- `PageFrameAllocator::free_page`: Free pages report `DoubleFree`; the
three other states all transition to Free and bump the counter. -/
def free_page (s : PageFrameAllocator) (page : Nat) :
    Except MemoryError Unit × PageFrameAllocator :=
  if page ≥ NUM_PAGES then (.error .InvalidPointer, s)
  else
    match s.get_page_state page with
    | .Free => (.error .DoubleFree, s)
    | .Allocated =>
      (.ok (), { s.set_page_state page PageState.Free with free_pages := s.free_pages + 1 })
    | .Reserved =>
      (.ok (), { s.set_page_state page PageState.Free with free_pages := s.free_pages + 1 })
    | .Corrupted =>
      (.ok (), { s.set_page_state page PageState.Free with free_pages := s.free_pages + 1 })

/-- `PageFrameAllocator::mark_corrupted`: set the state to Corrupted (the
free counter is not touched). -/
def mark_corrupted (s : PageFrameAllocator) (page : Nat) : PageFrameAllocator :=
  if page < NUM_PAGES then s.set_page_state page PageState.Corrupted else s

/-- The number of frames whose state is Free (the quantity the spec's
invariant compares against the `free_pages` counter). -/
def countFree (s : PageFrameAllocator) : Nat :=
  ((Finset.range NUM_PAGES).filter (fun p => s.bitmap p = PageState.Free)).card

end PageFrameAllocator

/-- One call in a page-frame-allocator trace. -/
inductive PfaOp where
  | allocPage
  | allocPages (count : Nat)
  | freePage (page : Nat)
  | markCorrupted (page : Nat)
  deriving DecidableEq, Repr

/-- Apply one allocator call (discarding its return value). -/
def PfaOp.step (s : PageFrameAllocator) : PfaOp → PageFrameAllocator
  | .allocPage => (s.alloc_page).2
  | .allocPages count => (s.alloc_pages count).2
  | .freePage page => (s.free_page page).2
  | .markCorrupted page => s.mark_corrupted page

/-- Run a trace of allocator calls from a state. -/
def PfaOp.run (s : PageFrameAllocator) (ops : List PfaOp) : PageFrameAllocator :=
  ops.foldl PfaOp.step s

/-- `true` iff the trace never applies `mark_corrupted` to a page that is
Free at that moment. -/
def PfaOp.marksNoFree : PageFrameAllocator → List PfaOp → Bool
  | _, [] => true
  | s, op :: rest =>
    (match op with
     | .markCorrupted page =>
       !(decide (page < NUM_PAGES) && (s.get_page_state page == PageState.Free))
     | _ => true) && PfaOp.marksNoFree (PfaOp.step s op) rest

/-! ## Process table and scheduler (src/cell0/kernel/src/process/mod.rs) -/

/-- `NUM_PRIORITIES`. -/
def NUM_PRIORITIES : Nat := 8

/-- `KERNEL_PID`. -/
def KERNEL_PID : Nat := 0

/-- `DEFAULT_TIME_SLICE`. -/
def DEFAULT_TIME_SLICE : Nat := 10

/-- `ProcessState` from process/mod.rs. -/
inductive ProcessState where
  | Ready
  | Running
  | Blocked
  | Sleeping
  | Zombie
  | Stopped
  | Terminated
  deriving DecidableEq, Repr

/-- `Priority` from process/mod.rs (discriminants 0..7, lower = higher). -/
inductive Priority where
  | Realtime
  | High
  | AboveNormal
  | Normal
  | BelowNormal
  | Low
  | Idle
  | Kernel
  deriving DecidableEq, Repr

/-- The `priority as usize` discriminant used as a ready-queue index. -/
def Priority.toNat : Priority → Nat
  | .Realtime => 0
  | .High => 1
  | .AboveNormal => 2
  | .Normal => 3
  | .BelowNormal => 4
  | .Low => 5
  | .Idle => 6
  | .Kernel => 7

/-- `Priority::time_slice_ms`. -/
def Priority.time_slice_ms : Priority → Nat
  | .Realtime => 1
  | .High => 5
  | .AboveNormal => 8
  | .Normal => DEFAULT_TIME_SLICE
  | .BelowNormal => 20
  | .Low => 50
  | .Idle => 100
  | .Kernel => 1

/-- `Signal` from process/mod.rs. -/
inductive Signal where
  | Hangup
  | Interrupt
  | Quit
  | Illegal
  | Trap
  | Abort
  | Bus
  | FloatingPoint
  | Kill
  | User1
  | Segfault
  | User2
  | Pipe
  | Alarm
  | Terminate
  | Child
  | Continue
  | Stop
  | TerminalStop
  deriving DecidableEq, Repr

/-- `ProcessError` from process/mod.rs. -/
inductive ProcessError where
  | ProcessNotFound
  | ParentNotFound
  | PermissionDenied
  | ResourceLimit
  | InvalidState
  | TableFull
  deriving DecidableEq, Repr

/-- `ResourceLimits` from process/mod.rs. -/
structure ResourceLimits where
  max_memory : Nat
  max_cpu_time : Nat
  max_open_files : Nat
  max_children : Nat
  deriving DecidableEq, Repr

/-- `ResourceLimits::default`. -/
def ResourceLimits.default : ResourceLimits :=
  { max_memory := 256 * 1024 * 1024, max_cpu_time := U64_MAX,
    max_open_files := 1024, max_children := 32 }

/-- `ProcessStats` from process/mod.rs (all counters start at 0). -/
structure ProcessStats where
  cpu_time_ms : Nat
  context_switches : Nat
  memory_used : Nat
  peak_memory : Nat
  syscalls : Nat
  page_faults : Nat
  created_at : Nat
  deriving DecidableEq, Repr

/-- `ProcessStats::default`. -/
def ProcessStats.default : ProcessStats :=
  { cpu_time_ms := 0, context_switches := 0, memory_used := 0,
    peak_memory := 0, syscalls := 0, page_faults := 0, created_at := 0 }

/-- `Process` (the process control block) from process/mod.rs. -/
structure Process where
  pid : Nat
  parent : Option Nat
  state : ProcessState
  priority : Priority
  capabilities : Capabilities
  limits : ResourceLimits
  stats : ProcessStats
  exit_code : Option Int
  time_slice_remaining : Nat
  sleep_until : Option Nat
  children : List Nat
  waiting_for : Option Nat
  deriving DecidableEq, Repr

/-- `Process::new`. -/
def Process.new (pid : Nat) (parent : Option Nat) (priority : Priority) : Process :=
  { pid := pid, parent := parent, state := .Ready, priority := priority,
    capabilities := Capabilities.new, limits := ResourceLimits.default,
    stats := ProcessStats.default, exit_code := none,
    time_slice_remaining := priority.time_slice_ms, sleep_until := none,
    children := [], waiting_for := none }

/-- `ProcessTable` from process/mod.rs.  The `BTreeMap<u64, Process>` is an
association list in ascending-key order (only fresh increasing pids are
ever inserted); the `[Vec<u64>; NUM_PRIORITIES]` ready-queue array is a map
from queue index to queue (indices `≥ NUM_PRIORITIES` are never used). -/
structure ProcessTable where
  processes : List (Nat × Process)
  next_pid : Nat
  ready_queues : Nat → List Nat
  current_pid : Option Nat
  zombies : List Nat

namespace ProcessTable

/-- `ProcessTable::new`. -/
def new : ProcessTable :=
  { processes := [], next_pid := 1, ready_queues := fun _ => [],
    current_pid := none, zombies := [] }

/-- `processes.get(&pid)`. -/
def lookup (t : ProcessTable) (pid : Nat) : Option Process :=
  (t.processes.find? (fun e => e.1 = pid)).map Prod.snd

/-- `processes.get_mut(&pid)` followed by a field update (no effect when
the pid is absent). -/
def updateProc (t : ProcessTable) (pid : Nat) (f : Process → Process) : ProcessTable :=
  { t with processes := t.processes.map (fun e => if e.1 = pid then (e.1, f e.2) else e) }

/-- `processes.insert(pid, p)` (replace an existing key, else append; the
kernel only ever inserts fresh increasing pids, so the append keeps the
list in the map's ascending-key order). -/
def insertProc (t : ProcessTable) (pid : Nat) (p : Process) : ProcessTable :=
  if t.processes.any (fun e => e.1 = pid) then
    { t with processes := t.processes.map (fun e => if e.1 = pid then (pid, p) else e) }
  else
    { t with processes := t.processes ++ [(pid, p)] }

/-- `ready_queues[l].push(pid)`. -/
def pushQueue (t : ProcessTable) (l : Nat) (pid : Nat) : ProcessTable :=
  { t with ready_queues := Function.update t.ready_queues l (t.ready_queues l ++ [pid]) }

/-- `ProcessTable::init`: insert the kernel process (pid 0, priority
Kernel, all capabilities, state Running) and make it current. -/
def init (t : ProcessTable) : ProcessTable :=
  let kernel := { Process.new KERNEL_PID none Priority.Kernel with
    capabilities := Capabilities.new.grant_all, state := ProcessState.Running }
  { insertProc t KERNEL_PID kernel with current_pid := some KERNEL_PID }

/-- `ProcessTable::spawn`. -/
def spawn (t : ProcessTable) (parent_pid : Nat) (priority : Priority) :
    Except ProcessError Nat × ProcessTable :=
  match t.lookup parent_pid with
  | none => (.error .ParentNotFound, t)
  | some parent =>
    if ¬ parent.capabilities.has .ProcessSpawn then (.error .PermissionDenied, t)
    else if parent.children.length ≥ parent.limits.max_children then
      (.error .ResourceLimit, t)
    else
      let pid := t.next_pid
      let child := { Process.new pid (some parent_pid) priority with
        capabilities := parent.capabilities.derive
          [.FileRead, .FileWrite, .MemoryAlloc, .Execute,
           .SignalSend, .IpcCreate, .IpcJoin] }
      let t := { t with next_pid := t.next_pid + 1 }
      let t := insertProc t pid child
      let t := updateProc t parent_pid
        (fun par => { par with children := par.children ++ [pid] })
      let t := pushQueue t priority.toNat pid
      (.ok pid, t)

/-- `ProcessTable::terminate`: mark Zombie, record the exit code, drop the
pid from every ready queue, push it on the zombies list, and wake a parent
that is `waiting_for` it. -/
def terminate (t : ProcessTable) (pid : Nat) (exit_code : Int) :
    Except ProcessError Unit × ProcessTable :=
  match t.lookup pid with
  | none => (.error .ProcessNotFound, t)
  | some process =>
    let t := updateProc t pid
      (fun p => { p with state := .Zombie, exit_code := some exit_code })
    let t := { t with ready_queues := fun l => (t.ready_queues l).filter (fun p => p ≠ pid) }
    let t := { t with zombies := t.zombies ++ [pid] }
    let t :=
      match process.parent with
      | some parent_pid =>
        match t.lookup parent_pid with
        | some parent =>
          if parent.waiting_for = some pid then
            let t := updateProc t parent_pid
              (fun par => { par with state := .Ready, waiting_for := none })
            pushQueue t parent.priority.toNat parent_pid
          else t
        | none => t
      | none => t
    (.ok (), t)

/-- `ProcessTable::schedule`: pop the head of the highest-priority
non-empty queue and re-push it at the back (round-robin). -/
def schedule (t : ProcessTable) : Option Nat × ProcessTable :=
  match (List.range NUM_PRIORITIES).find? (fun l => !(t.ready_queues l).isEmpty) with
  | none => (none, t)
  | some l =>
    match t.ready_queues l with
    | [] => (none, t)
    | pid :: rest =>
      (some pid, { t with ready_queues := Function.update t.ready_queues l (rest ++ [pid]) })

/-- `ProcessTable::context_switch`: a still-Running current process
becomes Ready (counting a context switch); the new pid becomes Running
with a fresh time slice; `current_pid` is set to the new pid. -/
def context_switch (t : ProcessTable) (new_pid : Nat) : ProcessTable :=
  let t :=
    match t.current_pid with
    | some current =>
      updateProc t current (fun proc =>
        if proc.state = .Running then
          { proc with
              state := .Ready
              stats := { proc.stats with
                context_switches := proc.stats.context_switches + 1 } }
        else proc)
    | none => t
  let t := updateProc t new_pid (fun proc =>
    { proc with state := .Running, time_slice_remaining := proc.priority.time_slice_ms })
  { t with current_pid := some new_pid }

/-- `ProcessTable::block`: only a Running process transitions to Blocked. -/
def block (t : ProcessTable) (pid : Nat) : Except ProcessError Unit × ProcessTable :=
  match t.lookup pid with
  | none => (.error .ProcessNotFound, t)
  | some process =>
    if process.state = .Running then
      (.ok (), updateProc t pid (fun p => { p with state := .Blocked }))
    else (.ok (), t)

/-- `ProcessTable::unblock`: a Blocked process becomes Ready and is
re-enqueued at its priority. -/
def unblock (t : ProcessTable) (pid : Nat) : Except ProcessError Unit × ProcessTable :=
  match t.lookup pid with
  | none => (.error .ProcessNotFound, t)
  | some process =>
    if process.state = .Blocked then
      (.ok (),
       pushQueue (updateProc t pid (fun p => { p with state := .Ready }))
         process.priority.toNat pid)
    else (.ok (), t)

/-- `ProcessTable::sleep`: unconditionally set Sleeping and `sleep_until`
(the pid is NOT removed from the ready queues). -/
def sleep (t : ProcessTable) (pid : Nat) (until_time : Nat) :
    Except ProcessError Unit × ProcessTable :=
  match t.lookup pid with
  | none => (.error .ProcessNotFound, t)
  | some _ =>
    (.ok (), updateProc t pid
      (fun p => { p with state := .Sleeping, sleep_until := some until_time }))

/-- The loop body of `wake_sleepers` for one map entry `e`: a Sleeping
process whose wake time has come becomes Ready and is re-enqueued. -/
def wakeStep (current_time : Nat) (acc : ProcessTable) (e : Nat × Process) : ProcessTable :=
  if e.2.state = .Sleeping then
    match e.2.sleep_until with
    | some until_time =>
      if current_time ≥ until_time then
        pushQueue
          (updateProc acc e.1 (fun p => { p with state := .Ready, sleep_until := none }))
          e.2.priority.toNat e.1
      else acc
    | none => acc
  else acc

/-- `ProcessTable::wake_sleepers`: every Sleeping process whose wake time
has come becomes Ready and is re-enqueued (map iteration order = list
order). -/
def wake_sleepers (t : ProcessTable) (current_time : Nat) : ProcessTable :=
  t.processes.foldl (wakeStep current_time) t

/-- `ProcessTable::send_signal`: the sender must exist, hold SignalSend,
and hold Admin or have the target among its children; Terminate and Stop
rewrite the target's state (without touching the ready queues), Continue
re-enqueues a Stopped target, every other signal is a no-op. -/
def send_signal (t : ProcessTable) (from_pid to_pid : Nat) (signal : Signal) :
    Except ProcessError Unit × ProcessTable :=
  match t.lookup from_pid with
  | none => (.error .ProcessNotFound, t)
  | some sender =>
    if ¬ sender.capabilities.has .SignalSend then (.error .PermissionDenied, t)
    else if ¬ (sender.capabilities.has_admin || sender.children.contains to_pid) then
      (.error .PermissionDenied, t)
    else
      match t.lookup to_pid with
      | none => (.error .ProcessNotFound, t)
      | some target =>
        match signal with
        | .Terminate => (.ok (), updateProc t to_pid (fun p => { p with state := .Terminated }))
        | .Stop => (.ok (), updateProc t to_pid (fun p => { p with state := .Stopped }))
        | .Continue =>
          if target.state = .Stopped then
            (.ok (),
             pushQueue (updateProc t to_pid (fun p => { p with state := .Ready }))
               target.priority.toNat to_pid)
          else (.ok (), t)
        | _ => (.ok (), t)

/-- The `zombies.retain` loop of `reap_zombies`: a zombie whose parent is
`waiting_for` it and which has an exit code is reaped (removed from the
process table and from the zombies list). -/
def reapAux : List Nat → ProcessTable → List (Nat × Int) →
    List Nat × List (Nat × Int) × ProcessTable
  | [], t, reaped => ([], reaped, t)
  | pid :: rest, t, reaped =>
    let keep := fun (t : ProcessTable) =>
      let r := reapAux rest t reaped
      (pid :: r.1, r.2.1, r.2.2)
    match t.lookup pid with
    | none => keep t
    | some process =>
      match process.parent with
      | none => keep t
      | some parent_pid =>
        match t.lookup parent_pid with
        | none => keep t
        | some parent =>
          if parent.waiting_for = some pid then
            match process.exit_code with
            | some exit_code =>
              reapAux rest
                { t with processes := t.processes.filter (fun e => e.1 ≠ pid) }
                (reaped ++ [(pid, exit_code)])
            | none => keep t
          else keep t

/-- `ProcessTable::reap_zombies`. -/
def reap_zombies (t : ProcessTable) : List (Nat × Int) × ProcessTable :=
  let r := reapAux t.zombies t []
  (r.2.1, { r.2.2 with zombies := r.1 })

/-- The number of table entries whose state is Running. -/
def countRunning (t : ProcessTable) : Nat :=
  (t.processes.filter (fun e => e.2.state = ProcessState.Running)).length

end ProcessTable

/-- One call in a process-table trace. -/
inductive PtOp where
  | spawn (parent : Nat) (priority : Priority)
  | terminate (pid : Nat) (code : Int)
  | schedule
  | contextSwitch (pid : Nat)
  | block (pid : Nat)
  | unblock (pid : Nat)
  | sleep (pid : Nat) (until_time : Nat)
  | wakeSleepers (now : Nat)
  | sendSignal (from_pid to_pid : Nat) (signal : Signal)
  | reapZombies
  deriving DecidableEq, Repr

/-- Apply one process-table call (discarding its return value). -/
def PtOp.step (t : ProcessTable) : PtOp → ProcessTable
  | .spawn parent priority => (t.spawn parent priority).2
  | .terminate pid code => (t.terminate pid code).2
  | .schedule => (t.schedule).2
  | .contextSwitch pid => t.context_switch pid
  | .block pid => (t.block pid).2
  | .unblock pid => (t.unblock pid).2
  | .sleep pid until_time => (t.sleep pid until_time).2
  | .wakeSleepers now => t.wake_sleepers now
  | .sendSignal from_pid to_pid signal => (t.send_signal from_pid to_pid signal).2
  | .reapZombies => (t.reap_zombies).2

/-- The boot state: `ProcessTable::new` followed by `init()`. -/
def PtOp.startState : ProcessTable := ProcessTable.new.init

/-- Run a trace of process-table calls from the boot state. -/
def PtOp.run (ops : List PtOp) : ProcessTable := ops.foldl PtOp.step PtOp.startState

/-! ## Raft consensus engine (src/cell0/kernel/src/consensus/mod.rs) -/

namespace Consensus

/-- `NodeState` from consensus/mod.rs. -/
inductive NodeState where
  | Follower
  | Candidate
  | Leader
  deriving DecidableEq, Repr

/-- `EntryType` from consensus/mod.rs. -/
inductive EntryType where
  | Command
  | ConfigChange
  | NoOp
  deriving DecidableEq, Repr

/-- `LogEntry<T>` from consensus/mod.rs. -/
structure LogEntry (T : Type) where
  term : Nat
  index : Nat
  command : T
  entry_type : EntryType
  deriving DecidableEq, Repr

/-- `PersistentState<T>` from consensus/mod.rs. -/
structure PersistentState (T : Type) where
  current_term : Nat
  voted_for : Option Nat
  log : List (LogEntry T)
  deriving DecidableEq, Repr

namespace PersistentState

/-- `PersistentState::last_index` (`log.len()`; the log is 1-indexed). -/
def last_index {T : Type} (p : PersistentState T) : Nat :=
  p.log.length

/-- `PersistentState::term_at`: 0 for index 0 or out of range. -/
def term_at {T : Type} (p : PersistentState T) (index : Nat) : Nat :=
  if index = 0 then 0
  else ((p.log.get? (index - 1)).map LogEntry.term).getD 0

/-- `PersistentState::entry_at`. -/
def entry_at {T : Type} (p : PersistentState T) (index : Nat) : Option (LogEntry T) :=
  if index = 0 then none else p.log.get? (index - 1)

end PersistentState

/-- `LeaderState` from consensus/mod.rs. -/
structure LeaderState where
  next_index : List Nat
  match_index : List Nat
  deriving DecidableEq, Repr

/-- `Config` from consensus/mod.rs (the fields the modelled paths read). -/
structure Config where
  node_id : Nat
  peers : List Nat
  max_entries_per_rpc : Nat
  deriving DecidableEq, Repr

/-- `Config::quorum`: `peers.len() / 2 + 1`. -/
def Config.quorum (c : Config) : Nat :=
  c.peers.length / 2 + 1

/-- `LogConflict` from consensus/mod.rs. -/
structure LogConflict where
  conflict_term : Nat
  conflict_index : Nat
  deriving DecidableEq, Repr

/-- `AppendEntriesArgs<T>` from consensus/mod.rs. -/
structure AppendEntriesArgs (T : Type) where
  term : Nat
  leader_id : Nat
  prev_log_index : Nat
  prev_log_term : Nat
  entries : List (LogEntry T)
  leader_commit : Nat
  deriving DecidableEq, Repr

/-- `AppendEntriesReply` from consensus/mod.rs. -/
structure AppendEntriesReply where
  term : Nat
  success : Bool
  conflict_info : Option LogConflict
  deriving DecidableEq, Repr

/-- `Event<T>` from consensus/mod.rs (the constructors emitted by the
modelled paths). -/
inductive Event (T : Type) where
  | BecameLeader
  | SteppedDown (new_term : Nat)
  | Committed (entries : List (LogEntry T))
  | SendAppendEntries (peer : Nat) (args : AppendEntriesArgs T)
  | PersistState
  | ResetElectionTimer
  deriving DecidableEq, Repr

/-- `Raft<T>` from consensus/mod.rs (the fields the modelled paths touch). -/
structure Raft (T : Type) where
  config : Config
  state : NodeState
  persistent : PersistentState T
  commit_index : Nat
  last_applied : Nat
  leader_state : Option LeaderState
  votes_received : List Nat
  pending_events : List (Event T)
  deriving DecidableEq, Repr

namespace Raft

variable {T : Type}

/-- `Raft::step_down`. -/
def step_down (r : Raft T) (new_term : Nat) : Raft T :=
  { r with
      persistent := { r.persistent with current_term := new_term, voted_for := none },
      state := .Follower,
      leader_state := none,
      pending_events := r.pending_events ++ [.SteppedDown new_term, .PersistState] }

/-- `Raft::check_apply`: emit a `Committed` event for the newly committed
slice and advance `last_applied`. -/
def check_apply (r : Raft T) : Raft T :=
  if r.commit_index > r.last_applied then
    let entries := ((List.range' (r.last_applied + 1) (r.commit_index - r.last_applied)).map
      (fun i => r.persistent.entry_at i)).reduceOption
    let r := { r with last_applied := r.commit_index }
    if entries.isEmpty then r
    else { r with pending_events := r.pending_events ++ [.Committed entries] }
  else r

/-- The conflict-index backoff search in `handle_append_entries`: walk
down from `prev_log_index` to the first index carrying `conflict_term`. -/
def conflictIndexFrom (p : PersistentState T) (conflict_term : Nat) : Nat → Nat
  | 0 => 0
  | ci + 1 =>
    if ci + 1 > 1 ∧ p.term_at ci = conflict_term then
      conflictIndexFrom p conflict_term ci
    else ci + 1

/-- The entry loop of `Raft::handle_append_entries`: for the entry at log
index `index`, either detect a term conflict and truncate from `index`
(the source then moves on WITHOUT storing the conflicting entry), skip an
already-present entry, or append a fresh one.  Returns the new log and the
`entries_added` flag. -/
def appendLoop : List (LogEntry T) → Nat → List (LogEntry T) → Bool →
    List (LogEntry T) × Bool
  | [], _, log, added => (log, added)
  | entry :: rest, index, log, added =>
    if index ≤ log.length then
      match log.get? (index - 1) with
      | some existing =>
        if existing.term ≠ entry.term then
          appendLoop rest (index + 1) (log.take (index - 1)) true
        else
          appendLoop rest (index + 1) log added
      | none =>
        -- `entry_at(index).unwrap()` cannot fail when 1 ≤ index ≤ log length
        appendLoop rest (index + 1) log added
    else
      appendLoop rest (index + 1) (log ++ [entry]) true

/-- `Raft::handle_append_entries`. -/
def handle_append_entries (r : Raft T) (args : AppendEntriesArgs T) :
    AppendEntriesReply × Raft T :=
  if args.term < r.persistent.current_term then
    ({ term := r.persistent.current_term, success := false, conflict_info := none }, r)
  else
    let r := { r with pending_events := r.pending_events ++ [.ResetElectionTimer] }
    let r := if args.term > r.persistent.current_term then r.step_down args.term else r
    let r := if r.state ≠ .Follower then r.step_down args.term else r
    -- log consistency check at prev_log_index
    if args.prev_log_index > 0 ∧ args.prev_log_index > r.persistent.last_index then
      ({ term := r.persistent.current_term, success := false,
         conflict_info := some ⟨0, r.persistent.last_index + 1⟩ }, r)
    else if args.prev_log_index > 0 ∧
        r.persistent.term_at args.prev_log_index ≠ args.prev_log_term then
      let conflict_term := r.persistent.term_at args.prev_log_index
      let conflict_index := conflictIndexFrom r.persistent conflict_term args.prev_log_index
      ({ term := r.persistent.current_term, success := false,
         conflict_info := some ⟨conflict_term, conflict_index⟩ }, r)
    else
      let result := appendLoop args.entries (args.prev_log_index + 1) r.persistent.log false
      let r := { r with persistent := { r.persistent with log := result.1 } }
      let r := if result.2 then
          { r with pending_events := r.pending_events ++ [.PersistState] }
        else r
      let r := if args.leader_commit > r.commit_index then
          ({ r with commit_index := min args.leader_commit r.persistent.last_index }).check_apply
        else r
      ({ term := r.persistent.current_term, success := true, conflict_info := none }, r)

/-- The loop body of `Raft::advance_commit_index`, iterating the fixed
range `(commit_index + 1)..=last_index`: skip indices of other terms
(`continue`), adopt a quorum-replicated current-term index, stop at the
first current-term index lacking a quorum (`break`). -/
def advanceLoop (p : PersistentState T) (match_index : List Nat) (quorum : Nat) :
    List Nat → Nat → Nat
  | [], commit => commit
  | n :: rest, commit =>
    if p.term_at n ≠ p.current_term then
      advanceLoop p match_index quorum rest commit
    else if (match_index.filter (fun m => n ≤ m)).length + 1 ≥ quorum then
      advanceLoop p match_index quorum rest n
    else
      commit

/-- `Raft::advance_commit_index`.  The source unwraps `leader_state`; it is
only invoked while leading, so a missing `leader_state` (a panic in the
source) is modelled as leaving the state unchanged. -/
def advance_commit_index (r : Raft T) : Raft T :=
  match r.leader_state with
  | none => r
  | some leader_state =>
    let last_index := r.persistent.last_index
    let ns := List.range' (r.commit_index + 1) (last_index - r.commit_index)
    let commit := advanceLoop r.persistent leader_state.match_index
      r.config.quorum ns r.commit_index
    ({ r with commit_index := commit }).check_apply

end Raft

end Consensus

/-! ## Concrete scenarios used by witnesses and counterexamples -/

/-- The inductive invariant of the process table: keys are unique and below
`next_pid`, no process is parked in `waiting_for` (only `waitpid` would set
it, and it is not a table operation), every ready-queue member is a table
entry whose priority discriminant is its queue index, and any Running entry
is the current pid. -/
structure ProcessTable.PTInv (t : ProcessTable) : Prop where
  nodup : (t.processes.map Prod.fst).Nodup
  fresh : ∀ e ∈ t.processes, e.1 < t.next_pid
  nowait : ∀ e ∈ t.processes, e.2.waiting_for = none
  queues : ∀ l pid, pid ∈ t.ready_queues l →
    ∃ p, t.lookup pid = some p ∧ p.priority.toNat = l
  running : ∀ pid p, t.lookup pid = some p → p.state = ProcessState.Running →
    t.current_pid = some pid

/-- The operation set of the spec's scheduler invariant (§8): every
process-table call except `context_switch` and `reap_zombies`. -/
def PtOp.schedOp : PtOp → Bool
  | .contextSwitch _ => false
  | .reapZombies => false
  | _ => true

/-- The forward direction of the scheduler invariant: every Ready table
entry appears in the ready queue of its priority. -/
def ProcessTable.ReadyEnq (t : ProcessTable) : Prop :=
  ∀ pid p, t.lookup pid = some p → p.state = ProcessState.Ready →
    pid ∈ t.ready_queues p.priority.toNat

/-- A Connected channel at capacity (two queued messages) for the C7
witness. -/
def fullChannel (blocking : Bool) : Channel :=
  { id := 7, channel_type := .Bidirectional, state := .Connected, owner := 1,
    peer := some 2,
    message_queue :=
      [⟨⟨1, 2, 0, 0, 0⟩, [10]⟩, ⟨⟨1, 2, 0, 0, 1⟩, [11]⟩],
    max_queue_size := 2, blocking_send := blocking, blocking_recv := true }

/-- A small concrete heap for the heap-allocator witnesses: one free block
of 64 payload bytes at address 4096. -/
def demoHeap : HeapState :=
  { heap_base := 4096, heap_size := 120, free_list := 4096,
    blocks := [(4096, { size := 64, is_allocated := false, magic := BLOCK_MAGIC,
                        prev := none, next := none })],
    canary := fun _ => true,
    stats := { total_pages := NUM_PAGES, free_pages := NUM_PAGES, allocated_pages := 0,
               corrupted_pages := 0, total_allocations := 0, total_deallocations := 0,
               failed_allocations := 0, corruption_events := 0, recovered_pages := 0 },
    healing_enabled := true }

/-- A concrete sender (pid 5, holding SignalSend, child list [9]) and
target (pid 9) for the C4 witness. -/
def ptSignalDemo : ProcessTable :=
  { processes :=
      [(5, { Process.new 5 none Priority.Normal with
               capabilities := ⟨2 ^ 12⟩, children := [9] }),
       (9, Process.new 9 (some 5) Priority.Normal)],
    next_pid := 10, ready_queues := fun _ => [], current_pid := none, zombies := [] }

/-- The S5-style cascade scenario: grant handle 1 to pid 1, delegate it to
pid 2 (handle 2), delegate that to pid 3 (handle 3), then revoke handle 1. -/
def sypasScenario : SypasManager :=
  ((((SypasManager.new.grant_capability 1 .FileRead).2.delegate_capability 1 2).2.delegate_capability
      2 3).2.revoke_capability 1).2

/-- A follower whose log holds one term-1 entry at index 1. -/
def raftFollower : Consensus.Raft Nat :=
  { config := { node_id := 1, peers := [1, 2, 3], max_entries_per_rpc := 100 }
    state := .Follower
    persistent := { current_term := 1, voted_for := none,
                    log := [{ term := 1, index := 1, command := 10, entry_type := .Command }] }
    commit_index := 0
    last_applied := 0
    leader_state := none
    votes_received := []
    pending_events := [] }

/-- An AppendEntries request whose single entry conflicts (different term)
with the follower's entry at index 1; `prev_log_index = 0`, so the
consistency check passes. -/
def raftConflictArgs : Consensus.AppendEntriesArgs Nat :=
  { term := 2, leader_id := 2, prev_log_index := 0, prev_log_term := 0,
    entries := [{ term := 2, index := 1, command := 20, entry_type := .Command }],
    leader_commit := 0 }

end Cell0

namespace Cell0

/-! ## Shared helper lemmas -/

theorem Capability.toBit_inj : ∀ {a b : Capability}, a.toBit = b.toBit → a = b := by
  intro a b
  cases a <;> cases b <;> decide

theorem decide_and_one_shiftLeft (n k : Nat) :
    decide ((n &&& (1 <<< k)) ≠ 0) = n.testBit k := by
  rw [Nat.one_shiftLeft, Nat.and_two_pow]
  rcases h : n.testBit k <;> simp [h]

theorem Capabilities.memRaw_set (a : Capabilities) (c r : Capability) :
    (a.set c).memRaw r = (a.memRaw r || decide (c = r)) := by
  unfold Capabilities.set Capabilities.memRaw
  rw [Nat.testBit_or, Nat.one_shiftLeft, Nat.testBit_two_pow]
  by_cases h : c = r
  · subst h; simp
  · have hb : c.toBit ≠ r.toBit := fun hh => h (Capability.toBit_inj hh)
    simp [h, hb]

theorem Capabilities.derive_foldl_memRaw (S : Capabilities) :
    ∀ (T : List Capability) (acc : Capabilities) (r : Capability),
      ((T.foldl (fun acc cap => if S.has cap then acc.set cap else acc) acc).memRaw r) =
        (acc.memRaw r || (decide (r ∈ T) && S.has r)) := by
  intro T
  induction T with
  | nil => intro acc r; simp
  | cons c T ih =>
    intro acc r
    simp only [List.foldl_cons]
    rw [ih]
    by_cases hc : S.has c
    · rw [if_pos hc, Capabilities.memRaw_set]
      by_cases hcr : c = r
      · subst hcr
        simp [hc]
      · have hrc : r ≠ c := fun h => hcr h.symm
        simp [hcr, hrc]
    · rw [if_neg hc]
      by_cases hcr : c = r
      · subst hcr
        have : S.has c = false := by simpa using hc
        simp [this]
      · have hrc : r ≠ c := fun h => hcr h.symm
        simp [hrc]

/-! ## Claim theorems -/

/-- C8: for every capability set `S` and requested right-list `T`,
`derive(S, T)` is the intersection of `S` and `T`: a right `r` is stored in
the derived bitset exactly when `r` appears in the request list `T` and `S`
contains `r` in the sense of a has-query (per §3.3 of the spec, membership
in `S` is the has-query, under which an Admin-holding set equals the full
right set). -/
theorem C8_derive_is_intersection :
    ∀ (S : Capabilities) (T : List Capability) (r : Capability),
      (S.derive T).memRaw r = true ↔ (S.has r = true ∧ r ∈ T) := by
  intro S T r
  unfold Capabilities.derive
  rw [Capabilities.derive_foldl_memRaw]
  have hnew : Capabilities.new.memRaw r = false := by
    simp [Capabilities.new, Capabilities.memRaw]
  rw [hnew]
  simp [and_comm]

/-- C7: `Channel::send` on a Connected channel whose queue already holds
`max_queue_size` messages returns `WouldBlock` when `blocking_send` is
true; when `blocking_send` is false it drops exactly the oldest queued
message and appends the new one behind the remaining messages, in order. -/
theorem C7_send_on_full_queue :
    ∀ (c : Channel) (m : Message),
      c.state = ChannelState.Connected →
      m.payload.length ≤ MAX_MESSAGE_SIZE →
      c.message_queue.length = c.max_queue_size →
      (c.blocking_send = true → c.send m = .error .WouldBlock) ∧
      (c.blocking_send = false →
        c.send m = .ok { c with message_queue := c.message_queue.tail ++ [m] }) := by
  intro c m hst hlen hfull
  have h1 : ¬ (m.payload.length > MAX_MESSAGE_SIZE) := by omega
  have h2 : c.message_queue.length ≥ c.max_queue_size := by omega
  constructor
  · intro hb
    simp [Channel.send, hst, h1, h2, hb]
  · intro hb
    simp [Channel.send, hst, h1, h2, hb]

/-- Witness for C7 at a concrete channel: the blocking channel reports
`WouldBlock`; the non-blocking one drops the oldest message. -/
theorem C7_send_on_full_queue_w :
    (fullChannel true).send ⟨⟨1, 2, 0, 0, 2⟩, [12]⟩ = .error .WouldBlock ∧
    (fullChannel false).send ⟨⟨1, 2, 0, 0, 2⟩, [12]⟩ =
      .ok { fullChannel false with
              message_queue := [⟨⟨1, 2, 0, 0, 1⟩, [11]⟩, ⟨⟨1, 2, 0, 0, 2⟩, [12]⟩] } :=
  ⟨(C7_send_on_full_queue (fullChannel true) ⟨⟨1, 2, 0, 0, 2⟩, [12]⟩ rfl (by decide) rfl).1 rfl,
   (C7_send_on_full_queue (fullChannel false) ⟨⟨1, 2, 0, 0, 2⟩, [12]⟩ rfl (by decide) rfl).2 rfl⟩

/-- C10: `HealingHeapAllocator::alloc` on a zero-size layout returns the
layout's alignment itself as the pointer (non-null, since an alignment is
at least 1) and leaves the entire heap state unchanged: no search, no
block mutation, no statistics update. -/
theorem C10_alloc_zero_size :
    ∀ (s : HeapState) (align : Nat), 0 < align →
      s.alloc 0 align = (align, s) ∧ (s.alloc 0 align).1 ≠ 0 := by
  intro s align h
  have he : s.alloc 0 align = (align, s) := by
    unfold HeapState.alloc
    simp
  refine ⟨he, ?_⟩
  rw [he]
  omega

/-- Witness for C10 at a concrete heap and alignment 8. -/
theorem C10_alloc_zero_size_w :
    demoHeap.alloc 0 8 = (8, demoHeap) ∧ (demoHeap.alloc 0 8).1 ≠ 0 :=
  C10_alloc_zero_size demoHeap 8 (by decide)

/-- C9: `dealloc` on a non-null pointer whose block header carries a valid
magic marker but is already marked not-allocated records exactly one
double-free event (the `corruption_events` counter) and returns with the
block list, the allocation flag, and every other statistic unchanged. -/
theorem C9_dealloc_double_free :
    ∀ (s : HeapState) (ptr : Nat) (b : BlockHeader),
      ptr ≠ 0 →
      s.lookupBlock (ptr - HEADER_SIZE) = some b →
      b.magic = BLOCK_MAGIC →
      b.is_allocated = false →
      s.dealloc ptr =
        { s with stats :=
            { s.stats with corruption_events := s.stats.corruption_events + 1 } } := by
  intro s ptr b hptr hlook hmagic halloc
  unfold HeapState.dealloc
  rw [if_neg hptr]
  simp only [hlook, hmagic, halloc]
  simp [HeapState.bumpCorruption]

/-- Witness for C9: freeing the (already free) block of `demoHeap` counts
one corruption event and changes nothing else. -/
theorem C9_dealloc_double_free_w :
    demoHeap.dealloc (4096 + HEADER_SIZE) =
      { demoHeap with stats :=
          { demoHeap.stats with
              corruption_events := demoHeap.stats.corruption_events + 1 } } :=
  C9_dealloc_double_free demoHeap (4096 + HEADER_SIZE)
    { size := 64, is_allocated := false, magic := BLOCK_MAGIC, prev := none, next := none }
    (by decide) rfl rfl rfl

/-- C1: the claim fails on the code.  `delegate_capability` succeeds (it
returns fresh handles 2 and 3 for the two delegations) but never adds the
new handle to the source entry's `delegated_to` list, so after
`revoke_capability` on the root handle the two delegated handles are still
unrevoked: the cascade required by the spec (and by `revoke_capability`'s
own recursive child walk) never happens. -/
theorem C1_delegate_drops_child_link :
    (((SypasManager.new.grant_capability 1 .FileRead).2.delegate_capability 1 2).1 = .ok 2) ∧
    ((((SypasManager.new.grant_capability 1 .FileRead).2.delegate_capability
        1 2).2.delegate_capability 2 3).1 = .ok 3) ∧
    (sypasScenario.capability_store.map
        (fun e => (e.handle, e.revoked, e.delegated_to)) =
      [(1, true, []), (2, false, []), (3, false, [])]) := by
  refine ⟨rfl, rfl, ?_⟩
  rfl

/-- C2: the claim fails on the code (`Raft::handle_append_entries` in
consensus/mod.rs).  With a term-1 entry at index 1 and an incoming entry
of term 2 for index 1 (consistency check passed, `prev_log_index = 0`),
the loop truncates the log but never stores the conflicting entry, and
still replies success: the resulting log is empty, so it does not contain
every entry of `args.entries` at its stated index. -/
theorem C2_conflicting_entry_dropped :
    ((raftFollower.handle_append_entries raftConflictArgs).1.success = true) ∧
    ((raftFollower.handle_append_entries raftConflictArgs).2.persistent.log = []) := by
  constructor
  · rfl
  · rfl

/-- The `advance_commit_index` loop either keeps the running commit value
or lands on an element of the scanned range that carries the current term
and is replicated on a quorum. -/
theorem Consensus.Raft.advanceLoop_spec {T : Type} (p : Consensus.PersistentState T)
    (mi : List Nat) (q : Nat) :
    ∀ (ns : List Nat) (commit : Nat),
      ns.Pairwise (· < ·) → (∀ n ∈ ns, commit < n) →
      Consensus.Raft.advanceLoop p mi q ns commit = commit ∨
      (Consensus.Raft.advanceLoop p mi q ns commit ∈ ns ∧
       commit < Consensus.Raft.advanceLoop p mi q ns commit ∧
       p.term_at (Consensus.Raft.advanceLoop p mi q ns commit) = p.current_term ∧
       (mi.filter (fun m => Consensus.Raft.advanceLoop p mi q ns commit ≤ m)).length + 1 ≥ q) := by
  intro ns
  induction ns with
  | nil => intro commit _ _; left; rfl
  | cons n rest ih =>
    intro commit hpw hlt
    have hpw' : rest.Pairwise (· < ·) := (List.pairwise_cons.mp hpw).2
    by_cases ht : p.term_at n ≠ p.current_term
    · have hrw : Consensus.Raft.advanceLoop p mi q (n :: rest) commit =
          Consensus.Raft.advanceLoop p mi q rest commit := by
        simp [Consensus.Raft.advanceLoop, ht]
      rw [hrw]
      rcases ih commit hpw' (fun m hm => hlt m (List.mem_cons_of_mem n hm)) with
        h | ⟨hmem, h2, h3, h4⟩
      · left; exact h
      · right; exact ⟨List.mem_cons_of_mem n hmem, h2, h3, h4⟩
    · push_neg at ht
      by_cases hq : (mi.filter (fun m => n ≤ m)).length + 1 ≥ q
      · have hrw : Consensus.Raft.advanceLoop p mi q (n :: rest) commit =
            Consensus.Raft.advanceLoop p mi q rest n := by
          simp [Consensus.Raft.advanceLoop, ht, hq]
        rw [hrw]
        have hrest : ∀ m ∈ rest, n < m := (List.pairwise_cons.mp hpw).1
        rcases ih n hpw' hrest with h | ⟨hmem, h2, h3, h4⟩
        · right
          rw [h]
          exact ⟨List.mem_cons_self n rest, hlt n (List.mem_cons_self n rest), ht, hq⟩
        · right
          refine ⟨List.mem_cons_of_mem n hmem, ?_, h3, h4⟩
          exact lt_trans (hlt n (List.mem_cons_self n rest)) h2
      · have hrw : Consensus.Raft.advanceLoop p mi q (n :: rest) commit = commit := by
          simp [Consensus.Raft.advanceLoop, ht, hq]
        left; exact hrw

/-- `check_apply` never moves `commit_index`. -/
theorem Consensus.Raft.check_apply_commit {T : Type} (r : Consensus.Raft T) :
    (r.check_apply).commit_index = r.commit_index := by
  unfold Consensus.Raft.check_apply
  by_cases h : r.commit_index > r.last_applied
  · simp only [h, if_true]
    split <;> rfl
  · simp [h]

/-- C3: `advance_commit_index` only ever raises `commit_index`, and only
to an index `N` (within the log) whose entry's term equals `current_term`
and which is replicated on `match_index` by enough peers that, counting
the leader itself, a quorum holds; it never commits an index of another
term by counting replicas. -/
theorem C3_advance_commit_index_safety {T : Type} (r : Consensus.Raft T) :
    (r.advance_commit_index).commit_index = r.commit_index ∨
    (∃ ls, r.leader_state = some ls ∧
      r.commit_index < (r.advance_commit_index).commit_index ∧
      (r.advance_commit_index).commit_index ≤ r.persistent.last_index ∧
      r.persistent.term_at (r.advance_commit_index).commit_index =
        r.persistent.current_term ∧
      (ls.match_index.filter
          (fun m => (r.advance_commit_index).commit_index ≤ m)).length + 1 ≥
        r.config.quorum) := by
  rcases hls : r.leader_state with _ | ls
  · left
    unfold Consensus.Raft.advance_commit_index
    rw [hls]
  · have hcommit : (r.advance_commit_index).commit_index =
        Consensus.Raft.advanceLoop r.persistent ls.match_index r.config.quorum
          (List.range' (r.commit_index + 1) (r.persistent.last_index - r.commit_index))
          r.commit_index := by
      unfold Consensus.Raft.advance_commit_index
      rw [hls, Consensus.Raft.check_apply_commit]
    have hpw : (List.range' (r.commit_index + 1)
        (r.persistent.last_index - r.commit_index)).Pairwise (· < ·) := by
      exact List.pairwise_lt_range' (r.commit_index + 1)
        (r.persistent.last_index - r.commit_index)
    have hgt : ∀ n ∈ List.range' (r.commit_index + 1)
        (r.persistent.last_index - r.commit_index), r.commit_index < n := by
      intro n hn
      have := (List.mem_range'_1).mp hn
      omega
    rcases Consensus.Raft.advanceLoop_spec r.persistent ls.match_index r.config.quorum
        (List.range' (r.commit_index + 1) (r.persistent.last_index - r.commit_index))
        r.commit_index hpw hgt with h | ⟨hmem, h2, h3, h4⟩
    · left
      rw [hcommit, h]
    · right
      refine ⟨ls, rfl, ?_, ?_, ?_, ?_⟩ <;> rw [hcommit]
      · exact h2
      · have := (List.mem_range'_1).mp hmem
        omega
      · exact h3
      · exact h4

/-! ### Page-frame-allocator counting lemmas (C6) -/

theorem ite_allocated_free : (if PageState.Allocated = PageState.Free then (1:Nat) else 0) = 0 := rfl

theorem ite_corrupted_free : (if PageState.Corrupted = PageState.Free then (1:Nat) else 0) = 0 := rfl

theorem ite_reserved_free : (if PageState.Reserved = PageState.Free then (1:Nat) else 0) = 0 := rfl

theorem ite_free_free : (if PageState.Free = PageState.Free then (1:Nat) else 0) = 1 := rfl

theorem card_filter_update (f : Nat → PageState) (i n : Nat) (v : PageState)
    (hi : i < n) :
    ((Finset.range n).filter (fun p => Function.update f i v p = PageState.Free)).card
      + (if f i = PageState.Free then 1 else 0)
    = ((Finset.range n).filter (fun p => f p = PageState.Free)).card
      + (if v = PageState.Free then 1 else 0) := by
  classical
  have hmem : i ∈ Finset.range n := Finset.mem_range.mpr hi
  have key : ∀ (g : Nat → PageState),
      ((Finset.range n).filter (fun p => g p = PageState.Free)).card
      = (∑ p ∈ (Finset.range n).erase i,
          (if g p = PageState.Free then 1 else 0)) + (if g i = PageState.Free then 1 else 0) := by
    intro g
    rw [Finset.card_filter]
    rw [← Finset.sum_erase_add _ _ hmem]
  rw [key, key]
  have hsum : (∑ p ∈ (Finset.range n).erase i,
      (if Function.update f i v p = PageState.Free then 1 else 0))
      = ∑ p ∈ (Finset.range n).erase i, (if f p = PageState.Free then 1 else 0) := by
    apply Finset.sum_congr rfl
    intro x hx
    have hxi : x ≠ i := (Finset.mem_erase.mp hx).1
    rw [Function.update_noteq hxi]
  rw [hsum, Function.update_same]
  omega

theorem PageFrameAllocator.countFree_set_page (s : PageFrameAllocator) (page : Nat)
    (v : PageState) (h : page < NUM_PAGES) :
    (s.set_page_state page v).countFree + (if s.bitmap page = PageState.Free then 1 else 0)
    = s.countFree + (if v = PageState.Free then 1 else 0) := by
  simpa [PageFrameAllocator.countFree, PageFrameAllocator.set_page_state] using
    card_filter_update s.bitmap page NUM_PAGES v h

theorem PageFrameAllocator.countFree_new :
    PageFrameAllocator.new.countFree = NUM_PAGES := by
  simp [PageFrameAllocator.countFree, PageFrameAllocator.new]

theorem PageFrameAllocator.countFree_pos (s : PageFrameAllocator) (page : Nat)
    (h : page < NUM_PAGES) (hfree : s.bitmap page = PageState.Free) :
    0 < s.countFree := by
  apply Finset.card_pos.mpr
  exact ⟨page, Finset.mem_filter.mpr ⟨Finset.mem_range.mpr h, hfree⟩⟩

theorem PageFrameAllocator.setAllocatedRange_apply (f : Nat → PageState) (start : Nat) :
    ∀ (c x : Nat), (∀ i, i < c → start + i ≠ x) →
      PageFrameAllocator.setAllocatedRange f start c x = f x := by
  intro c
  induction c with
  | zero => intro x _; rfl
  | succ c ih =>
    intro x hx
    unfold PageFrameAllocator.setAllocatedRange
    rw [Function.update_noteq (fun h => (hx c (Nat.lt_succ_self c)) h.symm)]
    exact ih x (fun i hi => hx i (Nat.lt_succ_of_lt hi))

theorem PageFrameAllocator.card_setAllocatedRange (f : Nat → PageState) (start : Nat) :
    ∀ (c : Nat), start + c ≤ NUM_PAGES → (∀ i, i < c → f (start + i) = PageState.Free) →
    ((Finset.range NUM_PAGES).filter
        (fun p => PageFrameAllocator.setAllocatedRange f start c p = PageState.Free)).card + c
    = ((Finset.range NUM_PAGES).filter (fun p => f p = PageState.Free)).card := by
  intro c
  induction c with
  | zero =>
    intro _ _
    simp [PageFrameAllocator.setAllocatedRange]
  | succ c ih =>
    intro hle hfree
    have hc := ih (by omega) (fun i hi => hfree i (Nat.lt_succ_of_lt hi))
    have happ : PageFrameAllocator.setAllocatedRange f start c (start + c) = f (start + c) :=
      PageFrameAllocator.setAllocatedRange_apply f start c (start + c)
        (fun i hi h => by omega)
    have hupd := card_filter_update (PageFrameAllocator.setAllocatedRange f start c)
      (start + c) NUM_PAGES PageState.Allocated (by omega)
    rw [happ, hfree c (Nat.lt_succ_self c)] at hupd
    rw [ite_free_free, ite_allocated_free] at hupd
    unfold PageFrameAllocator.setAllocatedRange
    omega

theorem PageFrameAllocator.countFree_mk (B : Nat → PageState) (np fp : Nat) :
    (PageFrameAllocator.mk B np fp).countFree
    = ((Finset.range NUM_PAGES).filter (fun p => B p = PageState.Free)).card := rfl

theorem PageFrameAllocator.alloc_page_eq_none (s : PageFrameAllocator)
    (h : (List.range NUM_PAGES).find?
      (fun i => s.get_page_state ((s.next_page + i) % NUM_PAGES) == PageState.Free) = none) :
    s.alloc_page = (none, s) := by
  unfold PageFrameAllocator.alloc_page
  rw [h]

theorem PageFrameAllocator.alloc_page_eq_some (s : PageFrameAllocator) (i : Nat)
    (h : (List.range NUM_PAGES).find?
      (fun i => s.get_page_state ((s.next_page + i) % NUM_PAGES) == PageState.Free) = some i) :
    s.alloc_page = (some ((s.next_page + i) % NUM_PAGES),
      PageFrameAllocator.mk
        (Function.update s.bitmap ((s.next_page + i) % NUM_PAGES) PageState.Allocated)
        (((s.next_page + i) % NUM_PAGES + 1) % NUM_PAGES)
        (s.free_pages - 1)) := by
  unfold PageFrameAllocator.alloc_page
  rw [h]
  rfl

theorem PageFrameAllocator.alloc_pages_eq_some (s : PageFrameAllocator) (count start : Nat)
    (hguard : ¬ (count = 0 ∨ count > NUM_PAGES))
    (h : (List.range (NUM_PAGES - count + 1)).find?
      (fun start => (List.range count).all
        (fun i => s.get_page_state (start + i) == PageState.Free)) = some start) :
    s.alloc_pages count = (some start,
      PageFrameAllocator.mk (PageFrameAllocator.setAllocatedRange s.bitmap start count)
        s.next_page (s.free_pages - count)) := by
  unfold PageFrameAllocator.alloc_pages
  rw [if_neg hguard, h]

/-- Invariant transport for one allocator call: the Free count never
exceeds the counter; when the call is not a `mark_corrupted` of a Free
page, the difference between counter and Free count is preserved exactly. -/
theorem PfaOp.step_counts (s : PageFrameAllocator) (op : PfaOp)
    (hle : s.countFree ≤ s.free_pages) :
    ((PfaOp.step s op).countFree ≤ (PfaOp.step s op).free_pages) ∧
    ((match op with
      | .markCorrupted page => ¬ (page < NUM_PAGES ∧ s.bitmap page = PageState.Free)
      | _ => True) →
      s.countFree = s.free_pages →
      (PfaOp.step s op).countFree = (PfaOp.step s op).free_pages) := by
  cases op with
  | allocPage =>
    rcases hfind : (List.range NUM_PAGES).find?
        (fun i => s.get_page_state ((s.next_page + i) % NUM_PAGES) == PageState.Free) with
      _ | i
    · have hstep : PfaOp.step s .allocPage = s := by
        show (s.alloc_page).2 = s
        rw [PageFrameAllocator.alloc_page_eq_none s hfind]
      rw [hstep]
      exact ⟨hle, fun _ h => h⟩
    · have hpred := List.find?_some hfind
      have hfree : s.bitmap ((s.next_page + i) % NUM_PAGES) = PageState.Free := by
        simpa [PageFrameAllocator.get_page_state] using hpred
      have hpage : (s.next_page + i) % NUM_PAGES < NUM_PAGES :=
        Nat.mod_lt _ (by decide)
      have hstep : PfaOp.step s .allocPage =
          PageFrameAllocator.mk
            (Function.update s.bitmap ((s.next_page + i) % NUM_PAGES) PageState.Allocated)
            (((s.next_page + i) % NUM_PAGES + 1) % NUM_PAGES)
            (s.free_pages - 1) := by
        show (s.alloc_page).2 = _
        rw [PageFrameAllocator.alloc_page_eq_some s i hfind]
      have hupd := card_filter_update s.bitmap ((s.next_page + i) % NUM_PAGES) NUM_PAGES
        PageState.Allocated hpage
      rw [hfree, ite_free_free, ite_allocated_free] at hupd
      have hpos := PageFrameAllocator.countFree_pos s _ hpage hfree
      rw [hstep, PageFrameAllocator.countFree_mk]
      unfold PageFrameAllocator.countFree at *
      dsimp only
      constructor
      · omega
      · intro _ h
        omega
  | allocPages count =>
    by_cases hguard : count = 0 ∨ count > NUM_PAGES
    · have hstep : PfaOp.step s (.allocPages count) = s := by
        show (s.alloc_pages count).2 = s
        unfold PageFrameAllocator.alloc_pages
        rw [if_pos hguard]
      rw [hstep]
      exact ⟨hle, fun _ h => h⟩
    · rcases hfind : (List.range (NUM_PAGES - count + 1)).find?
          (fun start => (List.range count).all
            (fun i => s.get_page_state (start + i) == PageState.Free)) with _ | start
      · have hstep : PfaOp.step s (.allocPages count) = s := by
          show (s.alloc_pages count).2 = s
          unfold PageFrameAllocator.alloc_pages
          rw [if_neg hguard, hfind]
        rw [hstep]
        exact ⟨hle, fun _ h => h⟩
      · have hpred := List.find?_some hfind
        have hall : ∀ i, i < count → s.bitmap (start + i) = PageState.Free := by
          intro i hi
          have := (List.all_eq_true.mp hpred) i (List.mem_range.mpr hi)
          simpa [PageFrameAllocator.get_page_state] using this
        have hstart : start < NUM_PAGES - count + 1 :=
          List.mem_range.mp (List.mem_of_find?_eq_some hfind)
        have hcount : count ≤ NUM_PAGES := by
          push_neg at hguard
          omega
        have hrange := PageFrameAllocator.card_setAllocatedRange s.bitmap start count
          (by omega) hall
        have hstep : PfaOp.step s (.allocPages count) =
            PageFrameAllocator.mk (PageFrameAllocator.setAllocatedRange s.bitmap start count)
              s.next_page (s.free_pages - count) := by
          show (s.alloc_pages count).2 = _
          rw [PageFrameAllocator.alloc_pages_eq_some s count start hguard hfind]
        rw [hstep, PageFrameAllocator.countFree_mk]
        unfold PageFrameAllocator.countFree at *
        dsimp only
        constructor
        · omega
        · intro _ h
          omega
  | freePage page =>
    by_cases hp : page ≥ NUM_PAGES
    · have hstep : PfaOp.step s (.freePage page) = s := by
        show (s.free_page page).2 = s
        unfold PageFrameAllocator.free_page
        rw [if_pos hp]
      rw [hstep]
      exact ⟨hle, fun _ h => h⟩
    · have hlt : page < NUM_PAGES := by omega
      have hupd := card_filter_update s.bitmap page NUM_PAGES PageState.Free hlt
      rw [ite_free_free] at hupd
      rcases hst : s.bitmap page with _ | _ | _ | _
      · have hstep : PfaOp.step s (.freePage page) = s := by
          show (s.free_page page).2 = s
          unfold PageFrameAllocator.free_page PageFrameAllocator.get_page_state
          rw [if_neg hp, hst]
        rw [hstep]
        exact ⟨hle, fun _ h => h⟩
      all_goals {
        have hstep : PfaOp.step s (.freePage page) =
            PageFrameAllocator.mk (Function.update s.bitmap page PageState.Free)
              s.next_page (s.free_pages + 1) := by
          show (s.free_page page).2 = _
          unfold PageFrameAllocator.free_page PageFrameAllocator.get_page_state
          rw [if_neg hp, hst]
          rfl
        rw [hst] at hupd
        first
          | rw [ite_allocated_free] at hupd
          | rw [ite_reserved_free] at hupd
          | rw [ite_corrupted_free] at hupd
        rw [hstep, PageFrameAllocator.countFree_mk]
        unfold PageFrameAllocator.countFree at *
        dsimp only
        constructor
        · omega
        · intro _ h
          omega
      }
  | markCorrupted page =>
    by_cases hp : page < NUM_PAGES
    · have hstep : PfaOp.step s (.markCorrupted page) =
          PageFrameAllocator.mk (Function.update s.bitmap page PageState.Corrupted)
            s.next_page s.free_pages := by
        show s.mark_corrupted page = _
        unfold PageFrameAllocator.mark_corrupted PageFrameAllocator.set_page_state
        rw [if_pos hp]
      have hupd := card_filter_update s.bitmap page NUM_PAGES PageState.Corrupted hp
      rw [ite_corrupted_free] at hupd
      rw [hstep, PageFrameAllocator.countFree_mk]
      unfold PageFrameAllocator.countFree at *
      dsimp only
      constructor
      · by_cases hf : s.bitmap page = PageState.Free
        · rw [hf, ite_free_free] at hupd
          omega
        · rw [if_neg hf] at hupd
          omega
      · intro hok h
        have hf : s.bitmap page ≠ PageState.Free := by
          intro hfree
          exact hok ⟨hp, hfree⟩
        rw [if_neg hf] at hupd
        omega
    · have hstep : PfaOp.step s (.markCorrupted page) = s := by
        show s.mark_corrupted page = s
        unfold PageFrameAllocator.mark_corrupted
        rw [if_neg hp]
      rw [hstep]
      exact ⟨hle, fun _ h => h⟩

/-- Trace-level transport of the two counting invariants. -/
theorem PfaOp.run_counts :
    ∀ (ops : List PfaOp) (s : PageFrameAllocator),
      s.countFree ≤ s.free_pages →
      ((PfaOp.run s ops).countFree ≤ (PfaOp.run s ops).free_pages) ∧
      (PfaOp.marksNoFree s ops = true → s.countFree = s.free_pages →
        (PfaOp.run s ops).countFree = (PfaOp.run s ops).free_pages) := by
  intro ops
  induction ops with
  | nil => intro s hle; exact ⟨hle, fun _ h => h⟩
  | cons op rest ih =>
    intro s hle
    have hstep := PfaOp.step_counts s op hle
    have hrun : PfaOp.run s (op :: rest) = PfaOp.run (PfaOp.step s op) rest := rfl
    rw [hrun]
    refine ⟨(ih (PfaOp.step s op) hstep.1).1, ?_⟩
    intro hmarks heq
    cases op with
    | markCorrupted page =>
      simp only [PfaOp.marksNoFree, Bool.and_eq_true] at hmarks
      have hok : ¬ (page < NUM_PAGES ∧ s.bitmap page = PageState.Free) := by
        intro hcon
        have hb : (decide (page < NUM_PAGES) &&
            (s.get_page_state page == PageState.Free)) = true := by
          have h1 : decide (page < NUM_PAGES) = true := decide_eq_true hcon.1
          have h2 : (s.get_page_state page == PageState.Free) = true := by
            simp [PageFrameAllocator.get_page_state, hcon.2]
          rw [h1, h2]
          rfl
        have := hmarks.1
        rw [hb] at this
        simp at this
      exact (ih _ hstep.1).2 hmarks.2 (hstep.2 hok heq)
    | allocPage =>
      simp only [PfaOp.marksNoFree, Bool.true_and] at hmarks
      exact (ih _ hstep.1).2 hmarks (hstep.2 trivial heq)
    | allocPages count =>
      simp only [PfaOp.marksNoFree, Bool.true_and] at hmarks
      exact (ih _ hstep.1).2 hmarks (hstep.2 trivial heq)
    | freePage page =>
      simp only [PfaOp.marksNoFree, Bool.true_and] at hmarks
      exact (ih _ hstep.1).2 hmarks (hstep.2 trivial heq)

/-- C6 fails as stated: `mark_corrupted` on page 0 of the fresh allocator
(all pages Free) turns a Free frame Corrupted without touching the
counter, so the Free-frame count is 16383 while `free_pages()` still
reports 16384. -/
theorem C6_mark_corrupted_breaks_equality :
    (PfaOp.run PageFrameAllocator.new [PfaOp.markCorrupted 0]).countFree = 16383 ∧
    (PfaOp.run PageFrameAllocator.new [PfaOp.markCorrupted 0]).free_pages = 16384 ∧
    (PfaOp.run PageFrameAllocator.new [PfaOp.markCorrupted 0]).countFree ≠
      (PfaOp.run PageFrameAllocator.new [PfaOp.markCorrupted 0]).free_pages := by
  have hstep : PfaOp.run PageFrameAllocator.new [PfaOp.markCorrupted 0] =
      PageFrameAllocator.mk
        (Function.update PageFrameAllocator.new.bitmap 0 PageState.Corrupted)
        PageFrameAllocator.new.next_page PageFrameAllocator.new.free_pages := by
    show PageFrameAllocator.new.mark_corrupted 0 = _
    unfold PageFrameAllocator.mark_corrupted PageFrameAllocator.set_page_state
    rw [if_pos (by decide : (0:Nat) < NUM_PAGES)]
  have hupd := card_filter_update PageFrameAllocator.new.bitmap 0 NUM_PAGES
    PageState.Corrupted (by decide)
  have hfree : PageFrameAllocator.new.bitmap 0 = PageState.Free := rfl
  rw [hfree, ite_free_free, ite_corrupted_free] at hupd
  have hnew : ((Finset.range NUM_PAGES).filter
      (fun p => PageFrameAllocator.new.bitmap p = PageState.Free)).card = NUM_PAGES := by
    have := PageFrameAllocator.countFree_new
    simpa [PageFrameAllocator.countFree] using this
  have h16 : NUM_PAGES = 16384 := rfl
  have hcount : (PfaOp.run PageFrameAllocator.new [PfaOp.markCorrupted 0]).countFree
      = 16383 := by
    rw [hstep, PageFrameAllocator.countFree_mk]
    omega
  have hfp : (PfaOp.run PageFrameAllocator.new [PfaOp.markCorrupted 0]).free_pages
      = 16384 := by
    rw [hstep]
    rfl
  exact ⟨hcount, hfp, by omega⟩

/-- C6 amended: after any sequence of `alloc_page`, `alloc_pages`,
`free_page` and `mark_corrupted` calls from the initial state, the number
of Free frames is at most the `free_pages()` counter, with equality
whenever `mark_corrupted` was never applied to a frame that was Free at
that moment (the claim's unrestricted equality fails because
`mark_corrupted` does not decrement the counter when it corrupts a Free
frame). -/
theorem C6_free_count_vs_counter :
    ∀ (ops : List PfaOp),
      ((PfaOp.run PageFrameAllocator.new ops).countFree ≤
        (PfaOp.run PageFrameAllocator.new ops).free_pages) ∧
      (PfaOp.marksNoFree PageFrameAllocator.new ops = true →
        (PfaOp.run PageFrameAllocator.new ops).countFree =
          (PfaOp.run PageFrameAllocator.new ops).free_pages) := by
  intro ops
  have hstart : PageFrameAllocator.new.countFree = PageFrameAllocator.new.free_pages := by
    rw [PageFrameAllocator.countFree_new]
    rfl
  have h := PfaOp.run_counts ops PageFrameAllocator.new (le_of_eq hstart)
  exact ⟨h.1, fun hm => h.2 hm hstart⟩

/-- Witness for C6 at a concrete trace (a double `free_page` that reports
DoubleFree and changes nothing): the equality form applies. -/
theorem C6_free_count_vs_counter_w :
    (PfaOp.run PageFrameAllocator.new [PfaOp.freePage 0]).countFree =
      (PfaOp.run PageFrameAllocator.new [PfaOp.freePage 0]).free_pages :=
  (C6_free_count_vs_counter [PfaOp.freePage 0]).2 rfl

/-! ### Process-table helper lemmas (C4, C5) -/

namespace ProcessTable

theorem find?_map_keyUpdate (pid q : Nat) (f : Process → Process) :
    ∀ (l : List (Nat × Process)),
      ((l.map (fun e => if e.1 = pid then (e.1, f e.2) else e)).find?
          (fun e => e.1 = q)).map Prod.snd =
        if q = pid
        then ((l.find? (fun e => e.1 = q)).map Prod.snd).map f
        else (l.find? (fun e => e.1 = q)).map Prod.snd := by
  intro l
  induction l with
  | nil => by_cases h : q = pid <;> simp [h]
  | cons e es ih =>
    simp only [List.map_cons]
    by_cases he : e.1 = pid
    · rw [if_pos he]
      by_cases heq : e.1 = q
      · have hq : q = pid := by rw [← heq, he]
        rw [List.find?_cons_of_pos _ (by simpa using heq),
          List.find?_cons_of_pos _ (by simpa using heq)]
        simp [hq]
      · rw [List.find?_cons_of_neg _ (by simpa using heq),
          List.find?_cons_of_neg _ (by simpa using heq)]
        exact ih
    · rw [if_neg he]
      by_cases heq : e.1 = q
      · have hq : ¬ q = pid := by
          intro h
          rw [h] at heq
          exact he heq
        rw [List.find?_cons_of_pos _ (by simpa using heq),
          List.find?_cons_of_pos _ (by simpa using heq)]
        simp [hq]
      · rw [List.find?_cons_of_neg _ (by simpa using heq),
          List.find?_cons_of_neg _ (by simpa using heq)]
        exact ih

theorem lookup_updateProc (t : ProcessTable) (pid : Nat) (f : Process → Process) (q : Nat) :
    (t.updateProc pid f).lookup q =
      if q = pid then (t.lookup q).map f else t.lookup q := by
  unfold lookup updateProc
  exact find?_map_keyUpdate pid q f t.processes

theorem keys_updateProc (t : ProcessTable) (pid : Nat) (f : Process → Process) :
    (t.updateProc pid f).processes.map Prod.fst = t.processes.map Prod.fst := by
  unfold updateProc
  simp only [List.map_map]
  apply List.map_congr_left
  intro e _
  by_cases he : e.1 = pid <;> simp [he]

theorem mem_updateProc (t : ProcessTable) (pid : Nat) (f : Process → Process) (e' : Nat × Process) :
    e' ∈ (t.updateProc pid f).processes →
    ∃ e ∈ t.processes, e' = (if e.1 = pid then (e.1, f e.2) else e) := by
  unfold updateProc
  intro h
  simp only [List.mem_map] at h
  rcases h with ⟨e, he, hmap⟩
  exact ⟨e, he, hmap.symm⟩

theorem insertProc_fresh (t : ProcessTable) (pid : Nat) (p : Process)
    (h : ∀ e ∈ t.processes, e.1 ≠ pid) :
    (t.insertProc pid p).processes = t.processes ++ [(pid, p)] := by
  unfold insertProc
  have hany : t.processes.any (fun e => e.1 = pid) = false := by
    rw [List.any_eq_false]
    intro e he
    simpa using h e he
  rw [hany]
  simp

theorem insertProc_next_pid (t : ProcessTable) (pid : Nat) (p : Process) :
    (t.insertProc pid p).next_pid = t.next_pid := by
  unfold insertProc
  split <;> rfl

theorem insertProc_queues (t : ProcessTable) (pid : Nat) (p : Process) :
    (t.insertProc pid p).ready_queues = t.ready_queues := by
  unfold insertProc
  split <;> rfl

theorem insertProc_current (t : ProcessTable) (pid : Nat) (p : Process) :
    (t.insertProc pid p).current_pid = t.current_pid := by
  unfold insertProc
  split <;> rfl

theorem lookup_append_single (l : List (Nat × Process)) (pid : Nat) (p : Process) (q : Nat) :
    ((l ++ [(pid, p)]).find? (fun e => e.1 = q)).map Prod.snd =
      if ((l.find? (fun e => e.1 = q)).map Prod.snd).isSome then
        (l.find? (fun e => e.1 = q)).map Prod.snd
      else if pid = q then some p else none := by
  rw [List.find?_append]
  rcases hf : l.find? (fun e => e.1 = q) with _ | e
  · simp only [Option.or, hf]
    by_cases hp : pid = q <;> simp [List.find?_cons, hp]
  · simp [Option.or, hf]

theorem queues_pushQueue (t : ProcessTable) (l : Nat) (pid : Nat) (m : Nat) :
    (t.pushQueue l pid).ready_queues m =
      if m = l then t.ready_queues l ++ [pid] else t.ready_queues m := by
  unfold pushQueue
  exact Function.update_apply t.ready_queues l (t.ready_queues l ++ [pid]) m

theorem lookup_pushQueue (t : ProcessTable) (l : Nat) (pid : Nat) (q : Nat) :
    (t.pushQueue l pid).lookup q = t.lookup q := rfl

theorem find?_of_mem_nodup :
    ∀ (l : List (Nat × Process)), (l.map Prod.fst).Nodup →
      ∀ e ∈ l, (l.find? (fun x => x.1 = e.1)).map Prod.snd = some e.2 := by
  intro l
  induction l with
  | nil => intro _ e he; cases he
  | cons a l' ih =>
    intro hnd e he
    simp only [List.map_cons, List.nodup_cons] at hnd
    rcases List.mem_cons.mp he with h | h
    · subst h
      rw [List.find?_cons_of_pos _ (by simp)]
      rfl
    · have hne : a.1 ≠ e.1 := by
        intro hcon
        exact hnd.1 (hcon ▸ List.mem_map_of_mem Prod.fst h)
      rw [List.find?_cons_of_neg _ (by simpa using hne)]
      exact ih hnd.2 e h

/-- Under key-nodup, a member entry is what `lookup` finds. -/
theorem lookup_of_mem (t : ProcessTable) (hnd : (t.processes.map Prod.fst).Nodup)
    (e : Nat × Process) (he : e ∈ t.processes) : t.lookup e.1 = some e.2 :=
  find?_of_mem_nodup t.processes hnd e he

/-- A list whose projections are nodup and all equal has length at most 1. -/
theorem length_le_one_of_all_eq {α β : Type} (l : List α) (f : α → β) (c : β)
    (hnd : (l.map f).Nodup) (hall : ∀ x ∈ l, f x = c) : l.length ≤ 1 := by
  cases l with
  | nil => simp
  | cons a l' =>
    cases l' with
    | nil => simp
    | cons b l'' =>
      exfalso
      simp only [List.map_cons, List.nodup_cons, List.mem_cons, List.mem_map] at hnd
      apply hnd.1
      left
      rw [hall a (by simp), hall b (by simp)]

theorem PTInv.updateProc_pres (t : ProcessTable) (hinv : PTInv t) (pid : Nat)
    (f : Process → Process)
    (hpr : ∀ p, (f p).priority = p.priority)
    (hw : ∀ p, p.waiting_for = none → (f p).waiting_for = none)
    (hr : ∀ p, (f p).state = ProcessState.Running → p.state = ProcessState.Running) :
    PTInv (t.updateProc pid f) := by
  constructor
  · rw [keys_updateProc]
    exact hinv.nodup
  · intro e he
    rcases mem_updateProc t pid f e he with ⟨e0, he0, hdef⟩
    have hfr := hinv.fresh e0 he0
    show e.1 < t.next_pid
    by_cases h : e0.1 = pid
    · rw [hdef, if_pos h]
      exact h ▸ hfr
    · rw [hdef, if_neg h]
      exact hfr
  · intro e he
    rcases mem_updateProc t pid f e he with ⟨e0, he0, hdef⟩
    have hnw := hinv.nowait e0 he0
    by_cases h : e0.1 = pid
    · rw [hdef, if_pos h]
      exact hw e0.2 hnw
    · rw [hdef, if_neg h]
      exact hnw
  · intro l q hq
    rcases hinv.queues l q hq with ⟨p, hp, hpl⟩
    rw [lookup_updateProc]
    by_cases hqp : q = pid
    · rw [if_pos hqp, hp]
      exact ⟨f p, rfl, by rw [hpr]; exact hpl⟩
    · rw [if_neg hqp]
      exact ⟨p, hp, hpl⟩
  · intro q p hlk hrun
    rw [lookup_updateProc] at hlk
    by_cases hqp : q = pid
    · rw [if_pos hqp] at hlk
      rcases Option.map_eq_some'.mp hlk with ⟨p0, hp0, hfp0⟩
      exact hinv.running q p0 hp0 (hr p0 (hfp0 ▸ hrun))
    · rw [if_neg hqp] at hlk
      exact hinv.running q p hlk hrun

theorem PTInv.pushQueue_pres (t : ProcessTable) (hinv : PTInv t) (l pid : Nat)
    (p : Process) (hp : t.lookup pid = some p) (hl : p.priority.toNat = l) :
    PTInv (t.pushQueue l pid) := by
  constructor
  · exact hinv.nodup
  · exact hinv.fresh
  · exact hinv.nowait
  · intro m q hq
    rw [queues_pushQueue] at hq
    by_cases hm : m = l
    · subst hm
      rw [if_pos rfl] at hq
      rcases List.mem_append.mp hq with h | h
      · exact hinv.queues _ q h
      · have hqe : q = pid := by simpa using h
        subst hqe
        exact ⟨p, hp, hl⟩
    · rw [if_neg hm] at hq
      exact hinv.queues m q hq
  · exact hinv.running

/-- `lookup` hits imply membership of the found entry. -/
theorem mem_of_lookup (t : ProcessTable) (pid : Nat) (p : Process)
    (h : t.lookup pid = some p) : (pid, p) ∈ t.processes := by
  unfold lookup at h
  rcases Option.map_eq_some'.mp h with ⟨e, he, hsnd⟩
  have hmem := List.mem_of_find?_eq_some he
  have hfst : e.1 = pid := by simpa using List.find?_some he
  have : e = (pid, p) := by
    cases e
    simp_all
  rw [← this]
  exact hmem

theorem nowait_lookup (t : ProcessTable) (hinv : PTInv t) (pid : Nat) (p : Process)
    (h : t.lookup pid = some p) : p.waiting_for = none :=
  hinv.nowait (pid, p) (mem_of_lookup t pid p h)

/-- A pid at or above `next_pid` is absent from the table. -/
theorem lookup_ge_next (t : ProcessTable) (hinv : PTInv t) (pid : Nat)
    (h : t.next_pid ≤ pid) : t.lookup pid = none := by
  unfold lookup
  rw [List.find?_eq_none.mpr]
  · rfl
  · intro e he
    have := hinv.fresh e he
    simp only [decide_eq_true_eq]
    omega

/-- The four state-independent invariant components survive any
key-preserving, priority-preserving, wait-preserving field update. -/
theorem PTInv.updateProc_core (t : ProcessTable) (hinv : PTInv t) (pid : Nat)
    (f : Process → Process)
    (hpr : ∀ p, (f p).priority = p.priority)
    (hw : ∀ p, p.waiting_for = none → (f p).waiting_for = none) :
    ((t.updateProc pid f).processes.map Prod.fst).Nodup ∧
    (∀ e ∈ (t.updateProc pid f).processes, e.1 < (t.updateProc pid f).next_pid) ∧
    (∀ e ∈ (t.updateProc pid f).processes, e.2.waiting_for = none) ∧
    (∀ l q, q ∈ (t.updateProc pid f).ready_queues l →
      ∃ p, (t.updateProc pid f).lookup q = some p ∧ p.priority.toNat = l) := by
  refine ⟨?_, ?_, ?_, ?_⟩
  · rw [keys_updateProc]
    exact hinv.nodup
  · intro e he
    rcases mem_updateProc t pid f e he with ⟨e0, he0, hdef⟩
    have hfr := hinv.fresh e0 he0
    show e.1 < t.next_pid
    by_cases h : e0.1 = pid
    · rw [hdef, if_pos h]
      exact hfr
    · rw [hdef, if_neg h]
      exact hfr
  · intro e he
    rcases mem_updateProc t pid f e he with ⟨e0, he0, hdef⟩
    have hnw := hinv.nowait e0 he0
    by_cases h : e0.1 = pid
    · rw [hdef, if_pos h]
      exact hw e0.2 hnw
    · rw [hdef, if_neg h]
      exact hnw
  · intro l q hq
    rcases hinv.queues l q hq with ⟨p, hp, hpl⟩
    rw [lookup_updateProc]
    by_cases hqp : q = pid
    · rw [if_pos hqp, hp]
      exact ⟨f p, rfl, by rw [hpr]; exact hpl⟩
    · rw [if_neg hqp]
      exact ⟨p, hp, hpl⟩

/-- `ProcessTable::block` preserves the invariant. -/
theorem PTInv.block_pres (t : ProcessTable) (hinv : PTInv t) (pid : Nat) :
    PTInv (t.block pid).2 := by
  unfold ProcessTable.block
  rcases h : t.lookup pid with _ | p
  · exact hinv
  · dsimp only
    by_cases hs : p.state = ProcessState.Running
    · rw [if_pos hs]
      exact PTInv.updateProc_pres t hinv pid
        (fun p => { p with state := ProcessState.Blocked })
        (fun _ => rfl) (fun _ h => h) (fun _ h => ProcessState.noConfusion h)
    · rw [if_neg hs]
      exact hinv

/-- `ProcessTable::sleep` preserves the invariant. -/
theorem PTInv.sleep_pres (t : ProcessTable) (hinv : PTInv t) (pid until_time : Nat) :
    PTInv (t.sleep pid until_time).2 := by
  unfold ProcessTable.sleep
  rcases h : t.lookup pid with _ | p
  · exact hinv
  · exact PTInv.updateProc_pres t hinv pid
      (fun p => { p with state := ProcessState.Sleeping, sleep_until := some until_time })
      (fun _ => rfl) (fun _ h => h) (fun _ h => ProcessState.noConfusion h)

/-- `ProcessTable::unblock` preserves the invariant. -/
theorem PTInv.unblock_pres (t : ProcessTable) (hinv : PTInv t) (pid : Nat) :
    PTInv (t.unblock pid).2 := by
  unfold ProcessTable.unblock
  rcases h : t.lookup pid with _ | p
  · exact hinv
  · dsimp only
    by_cases hs : p.state = ProcessState.Blocked
    · rw [if_pos hs]
      have h1 := PTInv.updateProc_pres t hinv pid
        (fun q => { q with state := ProcessState.Ready })
        (fun _ => rfl) (fun _ h => h) (fun _ h => ProcessState.noConfusion h)
      apply PTInv.pushQueue_pres _ h1 _ pid { p with state := ProcessState.Ready }
      · rw [lookup_updateProc, if_pos rfl, h]
        rfl
      · rfl
    · rw [if_neg hs]
      exact hinv

/-- `ProcessTable::schedule` preserves the invariant. -/
theorem PTInv.schedule_pres (t : ProcessTable) (hinv : PTInv t) :
    PTInv (t.schedule).2 := by
  unfold ProcessTable.schedule
  rcases hf : (List.range NUM_PRIORITIES).find? (fun l => !(t.ready_queues l).isEmpty) with
    _ | l
  · exact hinv
  · dsimp only
    rcases hq : t.ready_queues l with _ | ⟨pid, rest⟩
    · exact hinv
    · refine ⟨hinv.nodup, hinv.fresh, hinv.nowait, ?_, hinv.running⟩
      intro m q hmem
      have hmem' : q ∈ Function.update t.ready_queues l (rest ++ [pid]) m := hmem
      rw [Function.update_apply] at hmem'
      by_cases hm : m = l
      · rw [if_pos hm] at hmem'
        have hold : q ∈ t.ready_queues l := by
          rw [hq]
          rcases List.mem_append.mp hmem' with h | h
          · exact List.mem_cons_of_mem pid h
          · have : q = pid := by simpa using h
            rw [this]
            exact List.mem_cons_self pid rest
        exact hm ▸ hinv.queues l q hold
      · rw [if_neg hm] at hmem'
        exact hinv.queues m q hmem'

/-- The final step of `context_switch`: making `new_pid` Running and
current, starting from a table with no Running entry at all. -/
theorem PTInv.switch_final (t1 : ProcessTable) (h1 : PTInv t1) (new_pid : Nat)
    (hnr : ∀ q p, t1.lookup q = some p → p.state ≠ ProcessState.Running) :
    PTInv { t1.updateProc new_pid (fun proc =>
      { proc with
          state := ProcessState.Running
          time_slice_remaining := proc.priority.time_slice_ms }) with
        current_pid := some new_pid } := by
  have core := PTInv.updateProc_core t1 h1 new_pid
    (fun proc => { proc with
        state := ProcessState.Running
        time_slice_remaining := proc.priority.time_slice_ms })
    (fun _ => rfl) (fun _ h => h)
  refine ⟨core.1, core.2.1, core.2.2.1, core.2.2.2, ?_⟩
  intro q p hlk hrun
  show some new_pid = some q
  have hlk' : (t1.updateProc new_pid (fun proc =>
      { proc with
          state := ProcessState.Running
          time_slice_remaining := proc.priority.time_slice_ms })).lookup q = some p := hlk
  rw [lookup_updateProc] at hlk'
  by_cases hqn : q = new_pid
  · rw [hqn]
  · rw [if_neg hqn] at hlk'
    exact absurd hrun (hnr q p hlk')

/-- `ProcessTable::context_switch` preserves the invariant. -/
theorem PTInv.context_switch_pres (t : ProcessTable) (hinv : PTInv t) (new_pid : Nat) :
    PTInv (t.context_switch new_pid) := by
  unfold ProcessTable.context_switch
  rcases hc : t.current_pid with _ | c
  · apply PTInv.switch_final t hinv new_pid
    intro q p hlk hrun
    have := hinv.running q p hlk hrun
    rw [hc] at this
    exact nomatch this
  · have hpr1 : ∀ p : Process, ((fun proc =>
        if proc.state = ProcessState.Running then
          { proc with
              state := ProcessState.Ready
              stats := { proc.stats with
                context_switches := proc.stats.context_switches + 1 } }
        else proc) p).priority = p.priority := by
      intro p
      by_cases h : p.state = ProcessState.Running <;> simp [h]
    have hw1 : ∀ p : Process, p.waiting_for = none → ((fun proc =>
        if proc.state = ProcessState.Running then
          { proc with
              state := ProcessState.Ready
              stats := { proc.stats with
                context_switches := proc.stats.context_switches + 1 } }
        else proc) p).waiting_for = none := by
      intro p h
      by_cases hs : p.state = ProcessState.Running <;> simp [hs] <;> exact h
    have hr1 : ∀ p : Process, ((fun proc =>
        if proc.state = ProcessState.Running then
          { proc with
              state := ProcessState.Ready
              stats := { proc.stats with
                context_switches := proc.stats.context_switches + 1 } }
        else proc) p).state = ProcessState.Running → p.state = ProcessState.Running := by
      intro p h
      by_cases hs : p.state = ProcessState.Running
      · exact hs
      · simp only [if_neg hs] at h
        exact h
    apply PTInv.switch_final _ (PTInv.updateProc_pres t hinv c _ hpr1 hw1 hr1) new_pid
    intro q p hlk hrun
    rw [lookup_updateProc] at hlk
    by_cases hqc : q = c
    · rw [if_pos hqc] at hlk
      rcases Option.map_eq_some'.mp hlk with ⟨p0, hp0, hfp0⟩
      by_cases hs : p0.state = ProcessState.Running
      · have hstate : p.state = ProcessState.Ready := by
          rw [← hfp0]
          simp [hs]
        rw [hstate] at hrun
        exact nomatch hrun
      · have hid : p = p0 := by
          rw [← hfp0]
          simp [hs]
        rw [hid] at hrun
        exact hs hrun
    · rw [if_neg hqc] at hlk
      have := hinv.running q p hlk hrun
      rw [hc] at this
      injection this with this
      exact hqc this.symm

/-- `ProcessTable::send_signal` preserves the invariant. -/
theorem PTInv.send_signal_pres (t : ProcessTable) (hinv : PTInv t)
    (from_pid to_pid : Nat) (signal : Signal) :
    PTInv (t.send_signal from_pid to_pid signal).2 := by
  unfold ProcessTable.send_signal
  rcases hs : t.lookup from_pid with _ | sender
  · exact hinv
  · dsimp only
    by_cases h1 : sender.capabilities.has Capability.SignalSend = true
    · rw [if_neg (fun hc => hc h1)]
      by_cases h2 : (sender.capabilities.has_admin || sender.children.contains to_pid) = true
      · rw [if_neg (fun hc => hc h2)]
        rcases ht : t.lookup to_pid with _ | target
        · exact hinv
        · dsimp only
          cases signal with
          | Terminate =>
            exact PTInv.updateProc_pres t hinv to_pid
              (fun p => { p with state := ProcessState.Terminated })
              (fun _ => rfl) (fun _ h => h) (fun _ h => ProcessState.noConfusion h)
          | Stop =>
            exact PTInv.updateProc_pres t hinv to_pid
              (fun p => { p with state := ProcessState.Stopped })
              (fun _ => rfl) (fun _ h => h) (fun _ h => ProcessState.noConfusion h)
          | Continue =>
            by_cases hst : target.state = ProcessState.Stopped
            · rw [if_pos hst]
              have hupd := PTInv.updateProc_pres t hinv to_pid
                (fun p => { p with state := ProcessState.Ready })
                (fun _ => rfl) (fun _ h => h) (fun _ h => ProcessState.noConfusion h)
              apply PTInv.pushQueue_pres _ hupd _ to_pid
                { target with state := ProcessState.Ready }
              · rw [lookup_updateProc, if_pos rfl, ht]
                rfl
              · rfl
            · rw [if_neg hst]
              exact hinv
          | Hangup => exact hinv
          | Interrupt => exact hinv
          | Quit => exact hinv
          | Illegal => exact hinv
          | Trap => exact hinv
          | Abort => exact hinv
          | Bus => exact hinv
          | FloatingPoint => exact hinv
          | Kill => exact hinv
          | User1 => exact hinv
          | Segfault => exact hinv
          | User2 => exact hinv
          | Pipe => exact hinv
          | Alarm => exact hinv
          | Child => exact hinv
          | TerminalStop => exact hinv
      · rw [if_pos h2]
        exact hinv
    · rw [if_pos h1]
      exact hinv

/-- `ProcessTable::terminate` preserves the invariant. -/
theorem PTInv.terminate_pres (t : ProcessTable) (hinv : PTInv t) (pid : Nat)
    (exit_code : Int) :
    PTInv (t.terminate pid exit_code).2 := by
  unfold ProcessTable.terminate
  rcases h : t.lookup pid with _ | process
  · exact hinv
  · dsimp only
    have h1 : PTInv (t.updateProc pid
        (fun p => { p with state := ProcessState.Zombie, exit_code := some exit_code })) :=
      PTInv.updateProc_pres t hinv pid
        (fun p => { p with state := ProcessState.Zombie, exit_code := some exit_code })
        (fun _ => rfl) (fun _ h => h) (fun _ h => ProcessState.noConfusion h)
    have h2 : PTInv { t.updateProc pid
        (fun p => { p with state := ProcessState.Zombie, exit_code := some exit_code }) with
          ready_queues := fun l => ((t.updateProc pid
            (fun p => { p with state := ProcessState.Zombie,
                               exit_code := some exit_code })).ready_queues l).filter
            (fun p => p ≠ pid) } :=
      ⟨h1.nodup, h1.fresh, h1.nowait,
       fun l q hq => h1.queues l q (List.mem_of_mem_filter hq), h1.running⟩
    have h3 : PTInv { { t.updateProc pid
        (fun p => { p with state := ProcessState.Zombie, exit_code := some exit_code }) with
          ready_queues := fun l => ((t.updateProc pid
            (fun p => { p with state := ProcessState.Zombie,
                               exit_code := some exit_code })).ready_queues l).filter
            (fun p => p ≠ pid) } with
          zombies := (t.updateProc pid
            (fun p => { p with state := ProcessState.Zombie,
                               exit_code := some exit_code })).zombies ++ [pid] } :=
      ⟨h2.nodup, h2.fresh, h2.nowait, h2.queues, h2.running⟩
    rcases hp : process.parent with _ | pp
    · exact h3
    · dsimp only
      split
      · next parent heq =>
        have hw := nowait_lookup _ h3 pp parent heq
        rw [hw, if_neg (fun hc => Option.noConfusion hc)]
        exact h3
      · next heq =>
        exact h3

/-- `ProcessTable::spawn` preserves the invariant. -/
theorem PTInv.spawn_pres (t : ProcessTable) (hinv : PTInv t) (parent_pid : Nat)
    (priority : Priority) :
    PTInv (t.spawn parent_pid priority).2 := by
  unfold ProcessTable.spawn
  rcases h : t.lookup parent_pid with _ | parent
  · exact hinv
  · dsimp only
    by_cases h1 : parent.capabilities.has Capability.ProcessSpawn = true
    · rw [if_neg (fun hc => hc h1)]
      by_cases h2 : parent.children.length ≥ parent.limits.max_children
      · rw [if_pos h2]
        exact hinv
      · rw [if_neg h2]
        have hfree : ∀ e ∈ t.processes, e.1 ≠ t.next_pid := by
          intro e he hc
          have := hinv.fresh e he
          omega
        have hplt : parent_pid < t.next_pid := by
          have := hinv.fresh (parent_pid, parent) (mem_of_lookup t parent_pid parent h)
          exact this
        have hnone : t.lookup t.next_pid = none :=
          lookup_ge_next t hinv t.next_pid (le_refl _)
        -- the freshly inserted table
        have hins : (ProcessTable.insertProc { t with next_pid := t.next_pid + 1 }
            t.next_pid
            { Process.new t.next_pid (some parent_pid) priority with
                capabilities := parent.capabilities.derive
                  [.FileRead, .FileWrite, .MemoryAlloc, .Execute,
                   .SignalSend, .IpcCreate, .IpcJoin] }).processes =
            t.processes ++ [(t.next_pid,
              { Process.new t.next_pid (some parent_pid) priority with
                  capabilities := parent.capabilities.derive
                    [.FileRead, .FileWrite, .MemoryAlloc, .Execute,
                     .SignalSend, .IpcCreate, .IpcJoin] })] :=
          insertProc_fresh _ _ _ hfree
        have hlu : ∀ q, (ProcessTable.insertProc { t with next_pid := t.next_pid + 1 }
            t.next_pid
            { Process.new t.next_pid (some parent_pid) priority with
                capabilities := parent.capabilities.derive
                  [.FileRead, .FileWrite, .MemoryAlloc, .Execute,
                   .SignalSend, .IpcCreate, .IpcJoin] }).lookup q =
            if (t.lookup q).isSome then t.lookup q
            else if t.next_pid = q then some
              { Process.new t.next_pid (some parent_pid) priority with
                  capabilities := parent.capabilities.derive
                    [.FileRead, .FileWrite, .MemoryAlloc, .Execute,
                     .SignalSend, .IpcCreate, .IpcJoin] }
            else none := by
          intro q
          show (ProcessTable.lookup _ q) = _
          unfold ProcessTable.lookup
          rw [hins]
          exact lookup_append_single t.processes t.next_pid _ q
        have h2inv : PTInv (ProcessTable.insertProc { t with next_pid := t.next_pid + 1 }
            t.next_pid
            { Process.new t.next_pid (some parent_pid) priority with
                capabilities := parent.capabilities.derive
                  [.FileRead, .FileWrite, .MemoryAlloc, .Execute,
                   .SignalSend, .IpcCreate, .IpcJoin] }) := by
          constructor
          · show ((ProcessTable.insertProc _ _ _).processes.map Prod.fst).Nodup
            rw [hins, List.map_append]
            rw [List.nodup_append]
            refine ⟨hinv.nodup, by simp, ?_⟩
            intro a ha hb
            have hb' : a = t.next_pid := by simpa using hb
            rcases List.mem_map.mp ha with ⟨e, he, hfst⟩
            exact hfree e he (by rw [hfst, hb'])
          · intro e he
            rw [hins] at he
            rw [insertProc_next_pid]
            show e.1 < t.next_pid + 1
            rcases List.mem_append.mp he with hm | hm
            · have := hinv.fresh e hm
              omega
            · have : e.1 = t.next_pid := by
                rcases List.mem_singleton.mp hm with rfl
                rfl
              omega
          · intro e he
            rw [hins] at he
            rcases List.mem_append.mp he with hm | hm
            · exact hinv.nowait e hm
            · rcases List.mem_singleton.mp hm with rfl
              rfl
          · intro l q hq
            rw [insertProc_queues] at hq
            rcases hinv.queues l q hq with ⟨p, hp, hpl⟩
            rw [hlu q, hp]
            exact ⟨p, by simp, hpl⟩
          · intro q p hlk hrun
            rw [insertProc_current]
            show t.current_pid = some q
            rw [hlu q] at hlk
            rcases hlq : t.lookup q with _ | p0
            · rw [hlq] at hlk
              simp only [Option.isSome_none, Bool.false_eq_true, if_false] at hlk
              by_cases hq : t.next_pid = q
              · rw [if_pos hq] at hlk
                injection hlk with hlk
                rw [← hlk] at hrun
                exact ProcessState.noConfusion hrun
              · rw [if_neg hq] at hlk
                exact Option.noConfusion hlk
            · rw [hlq] at hlk
              simp only [Option.isSome_some, if_true] at hlk
              injection hlk with hlk
              subst hlk
              exact hinv.running q _ hlq hrun
        have h3inv := PTInv.updateProc_pres _ h2inv parent_pid
          (fun par => { par with children := par.children ++ [t.next_pid] })
          (fun _ => rfl) (fun _ hh => hh) (fun _ hh => hh)
        have hlk3 : (ProcessTable.updateProc (ProcessTable.insertProc
            { t with next_pid := t.next_pid + 1 } t.next_pid
            { Process.new t.next_pid (some parent_pid) priority with
                capabilities := parent.capabilities.derive
                  [.FileRead, .FileWrite, .MemoryAlloc, .Execute,
                   .SignalSend, .IpcCreate, .IpcJoin] }) parent_pid
            (fun par => { par with children := par.children ++ [t.next_pid] })).lookup
            t.next_pid = some
              { Process.new t.next_pid (some parent_pid) priority with
                  capabilities := parent.capabilities.derive
                    [.FileRead, .FileWrite, .MemoryAlloc, .Execute,
                     .SignalSend, .IpcCreate, .IpcJoin] } := by
          rw [lookup_updateProc, if_neg (by omega : ¬ t.next_pid = parent_pid)]
          rw [hlu t.next_pid, hnone]
          simp
        exact PTInv.pushQueue_pres _ h3inv priority.toNat t.next_pid _ hlk3 rfl
    · rw [if_pos h1]
      exact hinv

/-- The `wake_sleepers` fold preserves the invariant, given that every
entry still to be visited is in the accumulator table with its recorded
priority. -/
theorem PTInv.wake_fold_pres (ct : Nat) :
    ∀ (l : List (Nat × Process)) (acc : ProcessTable),
      PTInv acc →
      (∀ e ∈ l, ∃ p, acc.lookup e.1 = some p ∧ p.priority = e.2.priority) →
      PTInv (l.foldl (wakeStep ct) acc) := by
  intro l
  induction l with
  | nil => intro acc h _; exact h
  | cons e rest ih =>
    intro acc hinv hpri
    have hstep : PTInv (wakeStep ct acc e) := by
      unfold wakeStep
      by_cases hs : e.2.state = ProcessState.Sleeping
      · rw [if_pos hs]
        rcases hu : e.2.sleep_until with _ | ut
        · exact hinv
        · dsimp only
          by_cases hct : ct ≥ ut
          · rw [if_pos hct]
            rcases hpri e (List.mem_cons_self e rest) with ⟨p, hp, hpp⟩
            have h1 := PTInv.updateProc_pres acc hinv e.1
              (fun p => { p with state := ProcessState.Ready, sleep_until := none })
              (fun _ => rfl) (fun _ hh => hh) (fun _ hh => ProcessState.noConfusion hh)
            apply PTInv.pushQueue_pres _ h1 _ e.1
              { p with state := ProcessState.Ready, sleep_until := none }
            · rw [lookup_updateProc, if_pos rfl, hp]
              rfl
            · show p.priority.toNat = e.2.priority.toNat
              rw [hpp]
          · rw [if_neg hct]
            exact hinv
      · rw [if_neg hs]
        exact hinv
    apply ih (wakeStep ct acc e) hstep
    intro e' he'
    rcases hpri e' (List.mem_cons_of_mem e he') with ⟨p, hp, hpp⟩
    unfold wakeStep
    by_cases hs : e.2.state = ProcessState.Sleeping
    · rw [if_pos hs]
      rcases hu : e.2.sleep_until with _ | ut
      · exact ⟨p, hp, hpp⟩
      · dsimp only
        by_cases hct : ct ≥ ut
        · rw [if_pos hct]
          rw [lookup_pushQueue, lookup_updateProc]
          by_cases hq : e'.1 = e.1
          · rw [if_pos hq, hp]
            exact ⟨_, rfl, hpp⟩
          · rw [if_neg hq]
            exact ⟨p, hp, hpp⟩
        · rw [if_neg hct]
          exact ⟨p, hp, hpp⟩
    · rw [if_neg hs]
      exact ⟨p, hp, hpp⟩

/-- `ProcessTable::wake_sleepers` preserves the invariant. -/
theorem PTInv.wake_sleepers_pres (t : ProcessTable) (hinv : PTInv t) (ct : Nat) :
    PTInv (t.wake_sleepers ct) := by
  unfold ProcessTable.wake_sleepers
  apply PTInv.wake_fold_pres ct t.processes t hinv
  intro e he
  exact ⟨e.2, lookup_of_mem t hinv.nodup e he, rfl⟩

/-- Under the invariant, `reapAux` removes nothing: no process has a
parked `waiting_for`, so no zombie is ever reaped. -/
theorem reapAux_id (t : ProcessTable) (hinv : PTInv t) :
    ∀ (l : List Nat) (reaped : List (Nat × Int)),
      reapAux l t reaped = (l, reaped, t) := by
  intro l
  induction l with
  | nil => intro reaped; rfl
  | cons pid rest ih =>
    intro reaped
    unfold reapAux
    rcases hl : t.lookup pid with _ | process
    · simp [ih]
    · dsimp only
      rcases hp : process.parent with _ | pp
      · simp [ih]
      · dsimp only
        rcases hpl : t.lookup pp with _ | parent
        · simp [ih]
        · dsimp only
          have hw : parent.waiting_for = none := nowait_lookup t hinv pp parent hpl
          rw [hw, if_neg (fun hc => Option.noConfusion hc)]
          simp [ih]

/-- `ProcessTable::reap_zombies` leaves the table unchanged under the
invariant. -/
theorem reap_zombies_id (t : ProcessTable) (hinv : PTInv t) :
    (t.reap_zombies).2 = t := by
  unfold ProcessTable.reap_zombies
  rw [reapAux_id t hinv t.zombies []]

/-- `ProcessTable::reap_zombies` preserves the invariant. -/
theorem PTInv.reap_zombies_pres (t : ProcessTable) (hinv : PTInv t) :
    PTInv (t.reap_zombies).2 := by
  rw [reap_zombies_id t hinv]
  exact hinv

/-- A field update that never creates a Ready process out of a non-Ready
one (and keeps priority when it keeps Ready) preserves `ReadyEnq`. -/
theorem ReadyEnq.updateProc_stable (t : ProcessTable) (hre : ReadyEnq t) (pid : Nat)
    (f : Process → Process)
    (hf : ∀ p, (f p).state = ProcessState.Ready →
      p.state = ProcessState.Ready ∧ (f p).priority = p.priority) :
    ReadyEnq (t.updateProc pid f) := by
  intro q p' hlk hrd
  have hlk2 : (t.updateProc pid f).lookup q = some p' := hlk
  rw [lookup_updateProc] at hlk2
  show q ∈ t.ready_queues p'.priority.toNat
  by_cases hq : q = pid
  · rw [if_pos hq] at hlk2
    obtain ⟨p0, hp0, hfp⟩ := Option.map_eq_some'.mp hlk2
    obtain ⟨h0r, hprio⟩ := hf p0 (by rw [hfp]; exact hrd)
    have hmem := hre q p0 hp0 h0r
    have hpr' : p'.priority = p0.priority := by rw [← hfp]; exact hprio
    rw [hpr']
    exact hmem
  · rw [if_neg hq] at hlk2
    exact hre q p' hlk2 hrd

/-- A Ready-making field update compensated by the matching queue push
preserves `ReadyEnq` (the unblock / Continue / wake pattern). -/
theorem ReadyEnq.update_push (t : ProcessTable) (hre : ReadyEnq t) (pid : Nat)
    (f : Process → Process) (p0 : Process) (hlkp0 : t.lookup pid = some p0)
    (hpr : ∀ p, (f p).priority = p.priority) :
    ReadyEnq (ProcessTable.pushQueue (t.updateProc pid f) p0.priority.toNat pid) := by
  intro q p' hlk' hrd
  have hlk2 : (t.updateProc pid f).lookup q = some p' := hlk'
  rw [lookup_updateProc] at hlk2
  show q ∈ (ProcessTable.pushQueue (t.updateProc pid f) p0.priority.toNat pid).ready_queues
    p'.priority.toNat
  rw [queues_pushQueue]
  by_cases hq : q = pid
  · rw [if_pos hq] at hlk2
    obtain ⟨pp, hpp, hfp⟩ := Option.map_eq_some'.mp hlk2
    have hpp0 : pp = p0 := by
      rw [hq, hlkp0] at hpp
      injection hpp with hpp
      exact hpp.symm
    have hpr' : p'.priority = p0.priority := by
      rw [← hfp, hpr, hpp0]
    rw [hpr', if_pos rfl, hq]
    exact List.mem_append_right _ (List.mem_singleton.mpr rfl)
  · rw [if_neg hq] at hlk2
    have hmem := hre q p' hlk2 hrd
    by_cases hm : p'.priority.toNat = p0.priority.toNat
    · rw [if_pos hm]
      rw [hm] at hmem
      exact List.mem_append_left _ hmem
    · rw [if_neg hm]
      exact hmem

/-- `ProcessTable::block` preserves `ReadyEnq`. -/
theorem ReadyEnq.block_stable (t : ProcessTable) (hre : ReadyEnq t) (pid : Nat) :
    ReadyEnq (t.block pid).2 := by
  unfold ProcessTable.block
  rcases h : t.lookup pid with _ | p
  · exact hre
  · dsimp only
    by_cases hs : p.state = ProcessState.Running
    · rw [if_pos hs]
      exact ReadyEnq.updateProc_stable t hre pid
        (fun p => { p with state := ProcessState.Blocked })
        (fun _ hh => ProcessState.noConfusion hh)
    · rw [if_neg hs]
      exact hre

/-- `ProcessTable::sleep` preserves `ReadyEnq`. -/
theorem ReadyEnq.sleep_stable (t : ProcessTable) (hre : ReadyEnq t) (pid until_time : Nat) :
    ReadyEnq (t.sleep pid until_time).2 := by
  unfold ProcessTable.sleep
  rcases h : t.lookup pid with _ | p
  · exact hre
  · exact ReadyEnq.updateProc_stable t hre pid
      (fun p => { p with state := ProcessState.Sleeping, sleep_until := some until_time })
      (fun _ hh => ProcessState.noConfusion hh)

/-- `ProcessTable::unblock` preserves `ReadyEnq`. -/
theorem ReadyEnq.unblock_stable (t : ProcessTable) (hre : ReadyEnq t) (pid : Nat) :
    ReadyEnq (t.unblock pid).2 := by
  unfold ProcessTable.unblock
  rcases h : t.lookup pid with _ | p
  · exact hre
  · dsimp only
    by_cases hs : p.state = ProcessState.Blocked
    · rw [if_pos hs]
      exact ReadyEnq.update_push t hre pid
        (fun q => { q with state := ProcessState.Ready }) p h (fun _ => rfl)
    · rw [if_neg hs]
      exact hre

/-- `ProcessTable::schedule` preserves `ReadyEnq` (round-robin rotation
keeps queue membership). -/
theorem ReadyEnq.schedule_stable (t : ProcessTable) (hre : ReadyEnq t) :
    ReadyEnq (t.schedule).2 := by
  unfold ProcessTable.schedule
  rcases hf : (List.range NUM_PRIORITIES).find? (fun l => !(t.ready_queues l).isEmpty) with
    _ | l
  · exact hre
  · dsimp only
    rcases hq : t.ready_queues l with _ | ⟨pid, rest⟩
    · exact hre
    · intro q p' hlk hrd
      have hmem := hre q p' hlk hrd
      show q ∈ Function.update t.ready_queues l (rest ++ [pid]) p'.priority.toNat
      rw [Function.update_apply]
      by_cases hm : p'.priority.toNat = l
      · rw [if_pos hm]
        have hq' : q ∈ t.ready_queues l := hm ▸ hmem
        rw [hq] at hq'
        rcases List.mem_cons.mp hq' with hh | hh
        · exact List.mem_append_right _ (List.mem_singleton.mpr hh)
        · exact List.mem_append_left _ hh
      · rw [if_neg hm]
        exact hmem

/-- `ProcessTable::send_signal` preserves `ReadyEnq`. -/
theorem ReadyEnq.send_signal_stable (t : ProcessTable) (hre : ReadyEnq t)
    (from_pid to_pid : Nat) (signal : Signal) :
    ReadyEnq (t.send_signal from_pid to_pid signal).2 := by
  unfold ProcessTable.send_signal
  rcases hs : t.lookup from_pid with _ | sender
  · exact hre
  · dsimp only
    by_cases h1 : sender.capabilities.has Capability.SignalSend = true
    · rw [if_neg (fun hc => hc h1)]
      by_cases h2 : (sender.capabilities.has_admin || sender.children.contains to_pid) = true
      · rw [if_neg (fun hc => hc h2)]
        rcases ht : t.lookup to_pid with _ | target
        · exact hre
        · dsimp only
          cases signal with
          | Terminate =>
            exact ReadyEnq.updateProc_stable t hre to_pid
              (fun p => { p with state := ProcessState.Terminated })
              (fun _ hh => ProcessState.noConfusion hh)
          | Stop =>
            exact ReadyEnq.updateProc_stable t hre to_pid
              (fun p => { p with state := ProcessState.Stopped })
              (fun _ hh => ProcessState.noConfusion hh)
          | Continue =>
            by_cases hst : target.state = ProcessState.Stopped
            · rw [if_pos hst]
              exact ReadyEnq.update_push t hre to_pid
                (fun p => { p with state := ProcessState.Ready }) target ht (fun _ => rfl)
            · rw [if_neg hst]
              exact hre
          | Hangup => exact hre
          | Interrupt => exact hre
          | Quit => exact hre
          | Illegal => exact hre
          | Trap => exact hre
          | Abort => exact hre
          | Bus => exact hre
          | FloatingPoint => exact hre
          | Kill => exact hre
          | User1 => exact hre
          | Segfault => exact hre
          | User2 => exact hre
          | Pipe => exact hre
          | Alarm => exact hre
          | Child => exact hre
          | TerminalStop => exact hre
      · rw [if_pos h2]
        exact hre
    · rw [if_pos h1]
      exact hre

/-- `ProcessTable::terminate` preserves `ReadyEnq`: the terminated pid
becomes Zombie (so no obligation), every other entry keeps its queue slot
through the filter, and the parent-wake branch never fires under the
invariant's `nowait` component. -/
theorem ReadyEnq.terminate_stable (t : ProcessTable) (hinv : PTInv t) (hre : ReadyEnq t)
    (pid : Nat) (exit_code : Int) :
    ReadyEnq (t.terminate pid exit_code).2 := by
  unfold ProcessTable.terminate
  rcases h : t.lookup pid with _ | process
  · exact hre
  · dsimp only
    have h1 : PTInv (t.updateProc pid
        (fun p => { p with state := ProcessState.Zombie, exit_code := some exit_code })) :=
      PTInv.updateProc_pres t hinv pid
        (fun p => { p with state := ProcessState.Zombie, exit_code := some exit_code })
        (fun _ => rfl) (fun _ h => h) (fun _ h => ProcessState.noConfusion h)
    have h2 : PTInv { t.updateProc pid
        (fun p => { p with state := ProcessState.Zombie, exit_code := some exit_code }) with
          ready_queues := fun l => ((t.updateProc pid
            (fun p => { p with state := ProcessState.Zombie,
                               exit_code := some exit_code })).ready_queues l).filter
            (fun p => p ≠ pid) } :=
      ⟨h1.nodup, h1.fresh, h1.nowait,
       fun l q hq => h1.queues l q (List.mem_of_mem_filter hq), h1.running⟩
    have h3 : PTInv { { t.updateProc pid
        (fun p => { p with state := ProcessState.Zombie, exit_code := some exit_code }) with
          ready_queues := fun l => ((t.updateProc pid
            (fun p => { p with state := ProcessState.Zombie,
                               exit_code := some exit_code })).ready_queues l).filter
            (fun p => p ≠ pid) } with
          zombies := (t.updateProc pid
            (fun p => { p with state := ProcessState.Zombie,
                               exit_code := some exit_code })).zombies ++ [pid] } :=
      ⟨h2.nodup, h2.fresh, h2.nowait, h2.queues, h2.running⟩
    have hre3 : ReadyEnq { { t.updateProc pid
        (fun p => { p with state := ProcessState.Zombie, exit_code := some exit_code }) with
          ready_queues := fun l => ((t.updateProc pid
            (fun p => { p with state := ProcessState.Zombie,
                               exit_code := some exit_code })).ready_queues l).filter
            (fun p => p ≠ pid) } with
          zombies := (t.updateProc pid
            (fun p => { p with state := ProcessState.Zombie,
                               exit_code := some exit_code })).zombies ++ [pid] } := by
      intro q p' hlk hrd
      have hlk2 : (t.updateProc pid
          (fun p => { p with state := ProcessState.Zombie,
                             exit_code := some exit_code })).lookup q = some p' := hlk
      rw [lookup_updateProc] at hlk2
      by_cases hq : q = pid
      · rw [if_pos hq] at hlk2
        obtain ⟨p0, _, hfp⟩ := Option.map_eq_some'.mp hlk2
        have hz : p'.state = ProcessState.Zombie := by rw [← hfp]
        rw [hz] at hrd
        exact ProcessState.noConfusion hrd
      · rw [if_neg hq] at hlk2
        have hmem := hre q p' hlk2 hrd
        show q ∈ (t.ready_queues p'.priority.toNat).filter (fun p => p ≠ pid)
        exact List.mem_filter.mpr ⟨hmem, decide_eq_true hq⟩
    rcases hp : process.parent with _ | pp
    · exact hre3
    · dsimp only
      split
      · next parent heq =>
        have hw := nowait_lookup _ h3 pp parent heq
        rw [hw, if_neg (fun hc => Option.noConfusion hc)]
        exact hre3
      · next heq =>
        exact hre3

/-- `ProcessTable::spawn` preserves `ReadyEnq`: the Ready child is pushed
onto the queue of its priority, the parent update keeps state and
priority, and every other entry is untouched. -/
theorem ReadyEnq.spawn_stable (t : ProcessTable) (hinv : PTInv t) (hre : ReadyEnq t)
    (parent_pid : Nat) (priority : Priority) :
    ReadyEnq (t.spawn parent_pid priority).2 := by
  unfold ProcessTable.spawn
  rcases h : t.lookup parent_pid with _ | parent
  · exact hre
  · dsimp only
    by_cases h1 : parent.capabilities.has Capability.ProcessSpawn = true
    · rw [if_neg (fun hc => hc h1)]
      by_cases h2 : parent.children.length ≥ parent.limits.max_children
      · rw [if_pos h2]
        exact hre
      · rw [if_neg h2]
        dsimp only
        have hfree : ∀ e ∈ t.processes, e.1 ≠ t.next_pid := by
          intro e he hc
          have := hinv.fresh e he
          omega
        have hplt : parent_pid < t.next_pid :=
          hinv.fresh (parent_pid, parent) (mem_of_lookup t parent_pid parent h)
        have hins : (ProcessTable.insertProc { t with next_pid := t.next_pid + 1 }
            t.next_pid
            { Process.new t.next_pid (some parent_pid) priority with
                capabilities := parent.capabilities.derive
                  [.FileRead, .FileWrite, .MemoryAlloc, .Execute,
                   .SignalSend, .IpcCreate, .IpcJoin] }).processes =
            t.processes ++ [(t.next_pid,
              { Process.new t.next_pid (some parent_pid) priority with
                  capabilities := parent.capabilities.derive
                    [.FileRead, .FileWrite, .MemoryAlloc, .Execute,
                     .SignalSend, .IpcCreate, .IpcJoin] })] :=
          insertProc_fresh _ _ _ hfree
        have hlu : ∀ q, (ProcessTable.insertProc { t with next_pid := t.next_pid + 1 }
            t.next_pid
            { Process.new t.next_pid (some parent_pid) priority with
                capabilities := parent.capabilities.derive
                  [.FileRead, .FileWrite, .MemoryAlloc, .Execute,
                   .SignalSend, .IpcCreate, .IpcJoin] }).lookup q =
            if (t.lookup q).isSome then t.lookup q
            else if t.next_pid = q then some
              { Process.new t.next_pid (some parent_pid) priority with
                  capabilities := parent.capabilities.derive
                    [.FileRead, .FileWrite, .MemoryAlloc, .Execute,
                     .SignalSend, .IpcCreate, .IpcJoin] }
            else none := by
          intro q
          show (ProcessTable.lookup _ q) = _
          unfold ProcessTable.lookup
          rw [hins]
          exact lookup_append_single t.processes t.next_pid _ q
        intro q p' hlk hrd
        rw [lookup_pushQueue, lookup_updateProc, hlu q] at hlk
        show q ∈ (ProcessTable.pushQueue _ priority.toNat t.next_pid).ready_queues
          p'.priority.toNat
        rw [queues_pushQueue]
        have hQ : (ProcessTable.updateProc (ProcessTable.insertProc
            { t with next_pid := t.next_pid + 1 } t.next_pid
            { Process.new t.next_pid (some parent_pid) priority with
                capabilities := parent.capabilities.derive
                  [.FileRead, .FileWrite, .MemoryAlloc, .Execute,
                   .SignalSend, .IpcCreate, .IpcJoin] }) parent_pid
            (fun par => { par with children := par.children ++ [t.next_pid] })).ready_queues
            = t.ready_queues := insertProc_queues _ _ _
        rw [hQ]
        by_cases hqp : q = parent_pid
        · subst hqp
          rw [if_pos rfl, h] at hlk
          simp only [Option.isSome_some, if_true, Option.map_some'] at hlk
          injection hlk with he
          have hpst : parent.state = ProcessState.Ready := by
            rw [← he] at hrd
            exact hrd
          have hmem := hre _ parent h hpst
          have hppr : p'.priority = parent.priority := by rw [← he]
          rw [hppr]
          by_cases hl : parent.priority.toNat = priority.toNat
          · rw [if_pos hl]
            rw [hl] at hmem
            exact List.mem_append_left _ hmem
          · rw [if_neg hl]
            exact hmem
        · rw [if_neg hqp] at hlk
          rcases hlq : t.lookup q with _ | p0
          · rw [hlq] at hlk
            simp only [Option.isSome_none, Bool.false_eq_true, if_false] at hlk
            by_cases hqn : t.next_pid = q
            · rw [if_pos hqn] at hlk
              injection hlk with hlk
              have hpr : p'.priority.toNat = priority.toNat := by
                rw [← hlk]
                rfl
              rw [hpr, if_pos rfl]
              exact List.mem_append_right _ (List.mem_singleton.mpr hqn.symm)
            · rw [if_neg hqn] at hlk
              exact Option.noConfusion hlk
          · rw [hlq] at hlk
            simp only [Option.isSome_some, if_true] at hlk
            injection hlk with hlk
            subst hlk
            have hmem := hre q p0 hlq hrd
            by_cases hl : p0.priority.toNat = priority.toNat
            · rw [if_pos hl]
              rw [hl] at hmem
              exact List.mem_append_left _ hmem
            · rw [if_neg hl]
              exact hmem
    · rw [if_pos h1]
      exact hre

/-- The `wake_sleepers` fold preserves `ReadyEnq`, given the invariant and
that every entry still to be visited is in the accumulator table with its
recorded priority. -/
theorem ReadyEnq.wake_fold (ct : Nat) :
    ∀ (l : List (Nat × Process)) (acc : ProcessTable),
      PTInv acc → ReadyEnq acc →
      (∀ e ∈ l, ∃ p, acc.lookup e.1 = some p ∧ p.priority = e.2.priority) →
      ReadyEnq (l.foldl (wakeStep ct) acc) := by
  intro l
  induction l with
  | nil => intro acc _ h _; exact h
  | cons e rest ih =>
    intro acc hinv hre hpri
    have hstepinv : PTInv (wakeStep ct acc e) :=
      PTInv.wake_fold_pres ct [e] acc hinv
        (fun e' he' => by
          obtain rfl := List.mem_singleton.mp he'
          exact hpri e' (List.mem_cons_self e' rest))
    have hstep : ReadyEnq (wakeStep ct acc e) := by
      unfold wakeStep
      by_cases hs : e.2.state = ProcessState.Sleeping
      · rw [if_pos hs]
        rcases hu : e.2.sleep_until with _ | ut
        · exact hre
        · dsimp only
          by_cases hct : ct ≥ ut
          · rw [if_pos hct]
            rcases hpri e (List.mem_cons_self e rest) with ⟨p, hp, hpp⟩
            have hpush := ReadyEnq.update_push acc hre e.1
              (fun p => { p with state := ProcessState.Ready, sleep_until := none }) p hp
              (fun _ => rfl)
            rw [show p.priority.toNat = e.2.priority.toNat from by rw [hpp]] at hpush
            exact hpush
          · rw [if_neg hct]
            exact hre
      · rw [if_neg hs]
        exact hre
    apply ih (wakeStep ct acc e) hstepinv hstep
    intro e' he'
    rcases hpri e' (List.mem_cons_of_mem e he') with ⟨p, hp, hpp⟩
    unfold wakeStep
    by_cases hs : e.2.state = ProcessState.Sleeping
    · rw [if_pos hs]
      rcases hu : e.2.sleep_until with _ | ut
      · exact ⟨p, hp, hpp⟩
      · dsimp only
        by_cases hct : ct ≥ ut
        · rw [if_pos hct]
          rw [lookup_pushQueue, lookup_updateProc]
          by_cases hq : e'.1 = e.1
          · rw [if_pos hq, hp]
            exact ⟨_, rfl, hpp⟩
          · rw [if_neg hq]
            exact ⟨p, hp, hpp⟩
        · rw [if_neg hct]
          exact ⟨p, hp, hpp⟩
    · rw [if_neg hs]
      exact ⟨p, hp, hpp⟩

/-- `ProcessTable::wake_sleepers` preserves `ReadyEnq`. -/
theorem ReadyEnq.wake_sleepers_stable (t : ProcessTable) (hinv : PTInv t) (hre : ReadyEnq t)
    (ct : Nat) : ReadyEnq (t.wake_sleepers ct) := by
  unfold ProcessTable.wake_sleepers
  apply ReadyEnq.wake_fold ct t.processes t hinv hre
  intro e he
  exact ⟨e.2, lookup_of_mem t hinv.nodup e he, rfl⟩

end ProcessTable

/-- Every process-table call preserves the invariant. -/
theorem PtOp.step_pres (t : ProcessTable) (hinv : ProcessTable.PTInv t) (op : PtOp) :
    ProcessTable.PTInv (PtOp.step t op) := by
  cases op with
  | spawn parent priority => exact ProcessTable.PTInv.spawn_pres t hinv parent priority
  | terminate pid code => exact ProcessTable.PTInv.terminate_pres t hinv pid code
  | schedule => exact ProcessTable.PTInv.schedule_pres t hinv
  | contextSwitch pid => exact ProcessTable.PTInv.context_switch_pres t hinv pid
  | block pid => exact ProcessTable.PTInv.block_pres t hinv pid
  | unblock pid => exact ProcessTable.PTInv.unblock_pres t hinv pid
  | sleep pid until_time => exact ProcessTable.PTInv.sleep_pres t hinv pid until_time
  | wakeSleepers now => exact ProcessTable.PTInv.wake_sleepers_pres t hinv now
  | sendSignal from_pid to_pid signal =>
    exact ProcessTable.PTInv.send_signal_pres t hinv from_pid to_pid signal
  | reapZombies => exact ProcessTable.PTInv.reap_zombies_pres t hinv

/-- The boot state satisfies the invariant. -/
theorem PtOp.startState_inv : ProcessTable.PTInv PtOp.startState := by
  constructor
  · show ([(KERNEL_PID, _)].map Prod.fst).Nodup
    simp
  · intro e he
    rcases List.mem_singleton.mp he with rfl
    show KERNEL_PID < 1
    decide
  · intro e he
    rcases List.mem_singleton.mp he with rfl
    rfl
  · intro l pid hmem
    exact absurd hmem (List.not_mem_nil pid)
  · intro pid p hlk _
    show some KERNEL_PID = some pid
    have : PtOp.startState.lookup pid =
        (([((KERNEL_PID : Nat), _)].find? (fun e => e.1 = pid)).map Prod.snd) := rfl
    by_cases h0 : (KERNEL_PID : Nat) = pid
    · rw [h0]
    · rw [this, List.find?_cons_of_neg _ (by simpa using h0)] at hlk
      exact Option.noConfusion hlk

/-- Traces preserve the invariant. -/
theorem PtOp.run_inv (ops : List PtOp) : ProcessTable.PTInv (PtOp.run ops) := by
  unfold PtOp.run
  have : ∀ (l : List PtOp) (t : ProcessTable), ProcessTable.PTInv t →
      ProcessTable.PTInv (l.foldl PtOp.step t) := by
    intro l
    induction l with
    | nil => intro t h; exact h
    | cons op rest ih =>
      intro t h
      exact ih (PtOp.step t op) (PtOp.step_pres t h op)
  exact this ops PtOp.startState PtOp.startState_inv

/-- In the boot state every Ready entry is enqueued at its priority
(vacuously: the only entry, the kernel, is Running). -/
theorem PtOp.startState_ready : ProcessTable.ReadyEnq PtOp.startState := by
  intro pid p hlk hrd
  have heq : PtOp.startState.lookup pid =
      (([((KERNEL_PID : Nat), _)].find? (fun e => e.1 = pid)).map Prod.snd) := rfl
  by_cases h0 : (KERNEL_PID : Nat) = pid
  · rw [heq, List.find?_cons_of_pos _ (by simpa using h0)] at hlk
    simp only [Option.map_some'] at hlk
    injection hlk with hlk
    rw [← hlk] at hrd
    exact ProcessState.noConfusion hrd
  · rw [heq, List.find?_cons_of_neg _ (by simpa using h0)] at hlk
    exact Option.noConfusion hlk

/-- Every call of the claim's operation set preserves the Ready-implies-
enqueued invariant (context_switch and reap_zombies are excluded). -/
theorem PtOp.step_ready (t : ProcessTable) (hinv : ProcessTable.PTInv t)
    (hre : ProcessTable.ReadyEnq t) (op : PtOp) (hop : PtOp.schedOp op = true) :
    ProcessTable.ReadyEnq (PtOp.step t op) := by
  cases op with
  | spawn parent priority => exact ProcessTable.ReadyEnq.spawn_stable t hinv hre parent priority
  | terminate pid code => exact ProcessTable.ReadyEnq.terminate_stable t hinv hre pid code
  | schedule => exact ProcessTable.ReadyEnq.schedule_stable t hre
  | contextSwitch pid => exact Bool.noConfusion hop
  | block pid => exact ProcessTable.ReadyEnq.block_stable t hre pid
  | unblock pid => exact ProcessTable.ReadyEnq.unblock_stable t hre pid
  | sleep pid until_time => exact ProcessTable.ReadyEnq.sleep_stable t hre pid until_time
  | wakeSleepers now => exact ProcessTable.ReadyEnq.wake_sleepers_stable t hinv hre now
  | sendSignal from_pid to_pid signal =>
    exact ProcessTable.ReadyEnq.send_signal_stable t hre from_pid to_pid signal
  | reapZombies => exact Bool.noConfusion hop

/-- Traces over the claim's operation set keep every Ready process in the
ready queue of its priority. -/
theorem PtOp.run_ready (ops : List PtOp) (hops : ∀ op ∈ ops, PtOp.schedOp op = true) :
    ProcessTable.ReadyEnq (PtOp.run ops) := by
  unfold PtOp.run
  have main : ∀ (l : List PtOp) (t : ProcessTable), ProcessTable.PTInv t →
      ProcessTable.ReadyEnq t → (∀ op ∈ l, PtOp.schedOp op = true) →
      ProcessTable.ReadyEnq (l.foldl PtOp.step t) := by
    intro l
    induction l with
    | nil => intro t _ h _; exact h
    | cons op rest ih =>
      intro t hinv hre hl
      exact ih (PtOp.step t op) (PtOp.step_pres t hinv op)
        (PtOp.step_ready t hinv hre op (hl op (List.mem_cons_self op rest)))
        (fun o ho => hl o (List.mem_cons_of_mem op ho))
  exact main ops PtOp.startState PtOp.startState_inv PtOp.startState_ready hops

/-- Under the invariant, at most one table entry is Running. -/
theorem ProcessTable.countRunning_le_one (t : ProcessTable) (hinv : ProcessTable.PTInv t) :
    t.countRunning ≤ 1 := by
  unfold ProcessTable.countRunning
  rcases hc : t.current_pid with _ | c
  · have hnil : t.processes.filter (fun e => e.2.state = ProcessState.Running) = [] := by
      rw [List.filter_eq_nil_iff]
      intro e he hcon
      have hrun : e.2.state = ProcessState.Running := by simpa using hcon
      have := hinv.running e.1 e.2 (ProcessTable.lookup_of_mem t hinv.nodup e he) hrun
      rw [hc] at this
      exact Option.noConfusion this
    rw [hnil]
    simp
  · have hnd : ((t.processes.filter
        (fun e => e.2.state = ProcessState.Running)).map Prod.fst).Nodup :=
      List.Nodup.sublist (List.Sublist.map Prod.fst (List.filter_sublist _)) hinv.nodup
    have hall : ∀ e ∈ t.processes.filter (fun e => e.2.state = ProcessState.Running),
        e.1 = c := by
      intro e he
      have hmem := List.mem_of_mem_filter he
      have hrun : e.2.state = ProcessState.Running := by
        simpa using List.of_mem_filter he
      have := hinv.running e.1 e.2 (ProcessTable.lookup_of_mem t hinv.nodup e hmem) hrun
      rw [hc] at this
      injection this with this
      exact this.symm
    exact ProcessTable.length_le_one_of_all_eq _ Prod.fst c hnd hall

/-- C5: the claim fails as stated: from the boot state, `block(0)` moves
the (only) Running process, the kernel, to Blocked, leaving no Running
process at all — so "exactly one process has state Running" is violated
in a reachable state. -/
theorem C5_block_leaves_no_running :
    (PtOp.run [PtOp.block 0]).countRunning = 0 ∧
    (PtOp.run [PtOp.block 0]).countRunning ≠ 1 := by
  constructor
  · rfl
  · decide

/-- C5 amended: in every state reachable from `init()` by any sequence of
table operations, AT MOST one process has state Running (the exact-one
form fails because block/terminate/sleep on the running process leave
zero Running processes). -/
theorem C5_at_most_one_running (ops : List PtOp) :
    (PtOp.run ops).countRunning ≤ 1 :=
  ProcessTable.countRunning_le_one (PtOp.run ops) (PtOp.run_inv ops)

/-- C4: the claim fails as stated: after spawning a child (pid 1, priority
Normal, ready queue 3) and delivering Stop to it, the child's state is
Stopped yet it still sits in ready queue 3 — the queue-membership iff is
violated and Stop did not remove it from the ready queues. -/
theorem C4_stop_leaves_pid_in_queue :
    ((PtOp.run [PtOp.spawn 0 Priority.Normal,
        PtOp.sendSignal 0 1 Signal.Stop]).ready_queues 3 = [1]) ∧
    (((PtOp.run [PtOp.spawn 0 Priority.Normal,
        PtOp.sendSignal 0 1 Signal.Stop]).lookup 1).map Process.state =
      some ProcessState.Stopped) := by
  constructor
  · rfl
  · rfl

/-- C4 amended: (a) in every reachable state, a pid in ready queue L is a
table entry whose priority discriminant is L (holds over ALL operations);
(b) over the claim's listed operation set — every call except
`context_switch` and `reap_zombies` — every Ready table entry appears in
the ready queue of its priority; the converse of (b) fails (a queued pid
need not be Ready); and (c) delivering Stop through `send_signal` sets the
target's state to Stopped while leaving every ready queue unchanged
(rather than removing the target from them). -/
theorem C4_ready_queue_and_stop :
    (∀ (ops : List PtOp) (l pid : Nat),
      pid ∈ (PtOp.run ops).ready_queues l →
      ∃ p, (PtOp.run ops).lookup pid = some p ∧ p.priority.toNat = l) ∧
    (∀ (ops : List PtOp), (∀ op ∈ ops, PtOp.schedOp op = true) →
      ∀ (pid : Nat) (p : Process),
        (PtOp.run ops).lookup pid = some p → p.state = ProcessState.Ready →
        pid ∈ (PtOp.run ops).ready_queues p.priority.toNat) ∧
    (∀ (t : ProcessTable) (from_pid to_pid : Nat) (sender target : Process),
      t.lookup from_pid = some sender →
      sender.capabilities.has Capability.SignalSend = true →
      (sender.capabilities.has_admin || sender.children.contains to_pid) = true →
      t.lookup to_pid = some target →
      (t.send_signal from_pid to_pid Signal.Stop).2.ready_queues = t.ready_queues ∧
      (t.send_signal from_pid to_pid Signal.Stop).2.lookup to_pid =
        some { target with state := ProcessState.Stopped }) := by
  refine ⟨?_, ?_, ?_⟩
  · intro ops l pid hmem
    exact (PtOp.run_inv ops).queues l pid hmem
  · intro ops hops pid p hlk hrd
    exact PtOp.run_ready ops hops pid p hlk hrd
  · intro t from_pid to_pid sender target hs h1 h2 ht
    have hstep : (t.send_signal from_pid to_pid Signal.Stop).2 =
        t.updateProc to_pid (fun p => { p with state := ProcessState.Stopped }) := by
      unfold ProcessTable.send_signal
      rw [hs]
      dsimp only
      rw [if_neg (fun hc => hc h1), if_neg (fun hc => hc h2), ht]
    rw [hstep]
    constructor
    · rfl
    · rw [ProcessTable.lookup_updateProc, if_pos rfl, ht]
      rfl

/-- Witness for C4 at concrete inputs: the queue-membership direction and
the Ready-implies-enqueued direction applied to the trace
`[spawn 0 Normal]` (child 1, Ready, sits in queue 3), and the Stop
behaviour applied to `ptSignalDemo`. -/
theorem C4_ready_queue_and_stop_w :
    (∃ p, (PtOp.run [PtOp.spawn 0 Priority.Normal]).lookup 1 = some p ∧
      p.priority.toNat = 3) ∧
    (1 ∈ (PtOp.run [PtOp.spawn 0 Priority.Normal]).ready_queues 3) ∧
    ((ptSignalDemo.send_signal 5 9 Signal.Stop).2.ready_queues =
        ptSignalDemo.ready_queues ∧
      (ptSignalDemo.send_signal 5 9 Signal.Stop).2.lookup 9 =
        some { Process.new 9 (some 5) Priority.Normal with
                 state := ProcessState.Stopped }) :=
  ⟨C4_ready_queue_and_stop.1 [PtOp.spawn 0 Priority.Normal] 3 1 (by decide),
   C4_ready_queue_and_stop.2.1 [PtOp.spawn 0 Priority.Normal] (by decide) 1
     { Process.new 1 (some 0) Priority.Normal with capabilities := ⟨29059⟩ }
     (by decide) rfl,
   C4_ready_queue_and_stop.2.2 ptSignalDemo 5 9
     { Process.new 5 none Priority.Normal with capabilities := ⟨2 ^ 12⟩, children := [9] }
     (Process.new 9 (some 5) Priority.Normal) rfl (by decide) (by decide) rfl⟩

/-- Witness for C5's amended bound at a concrete trace. -/
theorem C5_at_most_one_running_w :
    (PtOp.run [PtOp.spawn 0 Priority.Normal]).countRunning ≤ 1 :=
  C5_at_most_one_running [PtOp.spawn 0 Priority.Normal]

end Cell0
